import Mathlib

/-
Verification development for the backtest / execution-simulation core of the
cross-sectional-machine-learning repository.

Shallow embedding conventions:
* Machine floats are modelled as exact rationals.  A price cell of the tidy
  panel is `Option ℚ`: `none` models a missing entry (pandas NaN) or any
  non-finite float, `some q` a finite value.  Consequently `np.isfinite(x)`
  on a price becomes `Option.isSome`.
* For `BpsCostModel` (src/src/csxgb/execution.py), whose early-return branch
  explicitly tests float finiteness of `bps`, floats are modelled by the
  four-constructor type `PyFloat` (finite rational, both infinities, NaN)
  with IEEE-style comparison and arithmetic.
* Dates (pandas Timestamps) are modelled as naturals; only their ordering
  and equality are used by the source.
* Python dicts keyed by strings become association lists; the source-side
  invariants (one record per (date, instrument); holdings lists without
  duplicates) make the two interchangeable, and all uses below are
  order-insensitive (sums, lookups, maxima).
* `raise ValueError(msg)` becomes `Except.error msg`; the message strings
  are kept up to punctuation.
* Statistics whose values are irrational in general (annualized return via
  fractional powers, vol/sharpe via square roots) are not needed by any
  claim and are omitted from the embedded result record; everything the
  claims mention (periods, turnover, cost, NAV path, max drawdown) is kept.
-/

attribute [local semireducible] Rat.add Rat.mul Rat.inv Rat.sub

deriving instance DecidableEq for Except

namespace CSXGB

/-! ## A small model of Python floats (for `BpsCostModel`) -/

/-- A Python/NumPy double: a finite rational, `+inf`, `-inf`, or NaN. -/
inductive PyFloat
  | fin (q : ℚ)
  | pinf
  | ninf
  | nan
deriving DecidableEq

/-- Model of `np.isfinite`. -/
def PyFloat.isFinite : PyFloat → Bool
  | .fin _ => true
  | _ => false

/-- IEEE `<=` (any comparison with NaN is false). -/
def PyFloat.le : PyFloat → PyFloat → Bool
  | .nan, _ => false
  | _, .nan => false
  | .ninf, _ => true
  | .fin _, .pinf => true
  | .fin a, .fin b => a ≤ b
  | .fin _, .ninf => false
  | .pinf, .pinf => true
  | .pinf, _ => false

/-- IEEE multiplication (`0 * inf = nan`). -/
def PyFloat.mul : PyFloat → PyFloat → PyFloat
  | .nan, _ => .nan
  | _, .nan => .nan
  | .fin a, .fin b => .fin (a * b)
  | .fin a, .pinf => if 0 < a then .pinf else if a < 0 then .ninf else .nan
  | .fin a, .ninf => if 0 < a then .ninf else if a < 0 then .pinf else .nan
  | .pinf, .fin b => if 0 < b then .pinf else if b < 0 then .ninf else .nan
  | .ninf, .fin b => if 0 < b then .ninf else if b < 0 then .pinf else .nan
  | .pinf, .pinf => .pinf
  | .pinf, .ninf => .ninf
  | .ninf, .pinf => .ninf
  | .ninf, .ninf => .pinf

/-- IEEE division restricted to a nonzero finite divisor, the only shape the
source uses (`self.bps / 10000.0`). -/
def PyFloat.divFin : PyFloat → ℚ → PyFloat
  | .nan, _ => .nan
  | .fin a, b => if b = 0 then .nan else .fin (a / b)
  | .pinf, b => if 0 < b then .pinf else if b < 0 then .ninf else .nan
  | .ninf, b => if 0 < b then .ninf else if b < 0 then .pinf else .nan

/-! ## src/src/csxgb/execution.py — cost models -/

/-- `BpsCostModel` dataclass: fields `bps` and `round_trip` (default `True`). -/
structure BpsCostModel where
  bps : PyFloat
  round_trip : Bool := true
deriving DecidableEq

/-- `BpsCostModel.cost`: waive everything when `bps` is non-finite or `<= 0`,
charge one side on the initial build, otherwise `factor * per_side * turnover`
with `factor = 2` iff `round_trip`. -/
def BpsCostModel.cost (m : BpsCostModel) (turnover : PyFloat)
    (is_initial : Bool) (side : String) : PyFloat :=
  if !m.bps.isFinite || m.bps.le (.fin 0) then .fin 0
  else
    let per_side := m.bps.divFin 10000
    if is_initial then per_side
    else
      let factor : PyFloat := if m.round_trip then .fin 2 else .fin 1
      (factor.mul per_side).mul turnover

/-- `NoCostModel.cost` is constantly zero. -/
def NoCostModel.cost (turnover : PyFloat) (is_initial : Bool) (side : String) : PyFloat :=
  .fin 0

/-- The closed set of cost models the builder can return. -/
inductive CostModel
  | bpsCost (m : BpsCostModel)
  | noCost
deriving DecidableEq

/-! ## String normalization used by the config builders -/

/-- Python `str.lower()` restricted to ASCII, which is all the recognized
names use. -/
def pyLower (s : String) : String := ⟨s.data.map Char.toLower⟩

/-- Characters stripped by Python `str.strip()` with no argument. -/
def isPySpace (c : Char) : Bool :=
  c = ' ' || c = '\t' || c = '\n' || c = '\r'

/-- Python `str.strip()`. -/
def pyStrip (s : String) : String :=
  ⟨((s.data.dropWhile isPySpace).reverse.dropWhile isPySpace).reverse⟩

/-- The `str(x).strip().lower()` normalization applied to config tokens. -/
def normTok (s : String) : String := pyLower (pyStrip s)

/-! ## Config builders (`build_cost_model`, `build_exit_policy`) -/

/-- The `cost_cfg` argument of `build_cost_model`: `None`, a bare string, or
a mapping with the keys the source reads (`name`, `bps`, `round_trip`). -/
inductive CostCfg
  | noneCfg
  | strCfg (s : String)
  | mapCfg (name : Option String) (bps : Option PyFloat) (round_trip : Option Bool)

/-- `build_cost_model`: dispatch on the normalized model name; unrecognized
mapping names raise `ValueError`. -/
def build_cost_model : CostCfg → PyFloat → Except String CostModel
  | .noneCfg, default_bps => .ok (.bpsCost ⟨default_bps, true⟩)
  | .strCfg s, default_bps =>
      let name := normTok s
      if name ∈ (["none", "zero", "off"] : List String) then .ok .noCost
      else .ok (.bpsCost ⟨default_bps, true⟩)
  | .mapCfg nm bps rt, default_bps =>
      let name := normTok (nm.getD "bps")
      if name ∈ (["none", "zero", "off"] : List String) then .ok .noCost
      else if name ∈ (["bps", "bp", "basis"] : List String) then
        .ok (.bpsCost ⟨bps.getD default_bps, rt.getD true⟩)
      else .error ("Unsupported cost model: " ++ name)

/-- `ExitPolicy` dataclass; the source stores the two policies as plain
strings and compares them against literals inside `resolve_exit_prices`. -/
structure ExitPolicy where
  price_policy : String
  fallback_policy : String
deriving DecidableEq

/-- The `exit_cfg` argument of `build_exit_policy`: `None`, some non-mapping
value, or a mapping with the four keys the source reads. -/
inductive ExitCfg
  | noneCfg
  | otherCfg
  | mapCfg (price price_policy fallback fallback_policy : Option String)

/-- Python truthiness filter for an optional string (`None` and `""` are
falsy), used to model the `a or b or default` chains in `build_exit_policy`. -/
def truthy : Option String → Option String
  | some s => if s = "" then none else some s
  | none => none

/-- Model of `cfg.get(k1) or cfg.get(k2) or default`. -/
def orChain (a b : Option String) (d : String) : String :=
  ((truthy a).orElse (fun _ => truthy b)).getD d

/-- `build_exit_policy`: normalize the two tokens and validate them against
the closed sets `{strict, ffill, delay}` and `{ffill, none}`. -/
def build_exit_policy : ExitCfg → String → String → Except String ExitPolicy
  | .noneCfg, default_price, default_fallback => .ok ⟨default_price, default_fallback⟩
  | .otherCfg, default_price, default_fallback => .ok ⟨default_price, default_fallback⟩
  | .mapCfg pr prp fb fbp, default_price, default_fallback =>
      let price := normTok (orChain pr prp default_price)
      let fallback := normTok (orChain fb fbp default_fallback)
      if price ∉ (["strict", "ffill", "delay"] : List String) then
        .error "exit_policy.price must be one of: strict, ffill, delay."
      else if fallback ∉ (["ffill", "none"] : List String) then
        .error "exit_policy.fallback must be one of: ffill, none."
      else .ok ⟨price, fallback⟩

/-! ## Exit-price resolution (`ExitPolicy.resolve_exit_prices`) -/

/-- A date-indexed price DataFrame: row labels plus, per column name, the
column values by row position (same length as `index` for well-formed
frames).  Out-of-range positional reads default to a missing cell. -/
structure PriceFrame where
  index : List ℕ
  col : String → List (Option ℚ)

/-- An optional tradability DataFrame aligned with the price frame. -/
structure BoolFrame where
  col : String → List Bool

/-- Tradability mask at a row position; absent table means tradable. -/
def tradOK (trad : Option BoolFrame) (s : String) (i : ℕ) : Bool :=
  match trad with
  | none => true
  | some t => (t.col s).getD i false

/-- A column as `(position, label, value)` triples. -/
def colPositions (f : PriceFrame) (s : String) : List (ℕ × ℕ × Option ℚ) :=
  (List.range (f.col s).length).map (fun i => (i, f.index.getD i 0, (f.col s).getD i none))

/-- Row label of `series.iloc[: planned + 1][mask].last_valid_index()`. -/
def lastValidLabel (f : PriceFrame) (trad : Option BoolFrame) (s : String)
    (planned : ℕ) : Option ℕ :=
  (((colPositions f s).filter
      (fun e => e.1 ≤ planned && tradOK trad s e.1 && e.2.2.isSome)).getLast?).map
    (fun e => e.2.1)

/-- Row label of `series.iloc[planned :][mask].first_valid_index()`. -/
def firstValidLabelFrom (f : PriceFrame) (trad : Option BoolFrame) (s : String)
    (planned : ℕ) : Option ℕ :=
  (((colPositions f s).filter
      (fun e => planned ≤ e.1 && tradOK trad s e.1 && e.2.2.isSome)).head?).map
    (fun e => e.2.1)

/-- `ExitPolicy._resolve_exit_idx`: per-instrument resolution of the planned
exit position into an actual position (`none` when the instrument drops).
The `delay` behaviour sits in the final catch-all branch, exactly as the
source's trailing `else`. -/
def ExitPolicy.resolveExitIdx (pol : ExitPolicy) (f : PriceFrame)
    (trad : Option BoolFrame) (s : String) (planned : ℕ)
    (trade_dates : List ℕ) (d2i : ℕ → Option ℕ) : Option ℕ :=
  if trade_dates.length ≤ planned then none
  else if pol.price_policy = "strict" then
    if ((f.col s).getD planned none).isSome && tradOK trad s planned then some planned
    else none
  else if pol.price_policy = "ffill" then
    match lastValidLabel f trad s planned with
    | some lab => d2i lab
    | none => none
  else
    match firstValidLabelFrom f trad s planned with
    | some lab => d2i lab
    | none =>
      if pol.fallback_policy = "ffill" then
        match lastValidLabel f trad s planned with
        | some lab => d2i lab
        | none => none
      else none

/-- The `(symbol, exit index, exit price)` triples accumulated by the loop of
`resolve_exit_prices` into `exit_idx_map` / `exit_price_map`: instruments
whose index resolves and whose price at the resolved index is finite. -/
def exitResolutions (pol : ExitPolicy) (holdings : List String) (planned : ℕ)
    (f : PriceFrame) (trad : Option BoolFrame) (trade_dates : List ℕ)
    (d2i : ℕ → Option ℕ) : List (String × ℕ × ℚ) :=
  holdings.filterMap (fun s =>
    match pol.resolveExitIdx f trad s planned trade_dates d2i with
    | none => none
    | some ei =>
      match (f.col s).getD ei none with
      | none => none
      | some q => some (s, ei, q))

/-- `ExitPolicy.resolve_exit_prices`: returns the per-instrument exit prices
and the realized period exit index (`max(planned, max resolved)` for `delay`,
`planned` otherwise). -/
def ExitPolicy.resolve_exit_prices (pol : ExitPolicy) (holdings : List String)
    (planned : ℕ) (f : PriceFrame) (trad : Option BoolFrame)
    (trade_dates : List ℕ) (d2i : ℕ → Option ℕ) : List (String × ℚ) × ℕ :=
  if holdings = [] then ([], planned)
  else
    let resolved := exitResolutions pol holdings planned f trad trade_dates d2i
    if resolved = [] then ([], planned)
    else
      let exit_prices := resolved.map (fun t => (t.1, t.2.2))
      let period_exit_idx :=
        if pol.price_policy = "delay" then
          max planned ((resolved.map (fun t => t.2.1)).foldl max 0)
        else planned
      (exit_prices, period_exit_idx)

/-! ## The tidy observation panel consumed by `backtest_topk` -/

/-- One row of the tidy panel: `(trade_date, ts_code, prediction, price)`.
The price is `Option ℚ` (`none` = missing/non-finite float cell). -/
structure Row where
  trade_date : ℕ
  ts_code : String
  pred : ℚ
  price : Option ℚ
deriving DecidableEq

/-- `sorted(data["trade_date"].unique())`. -/
def tradeDates (data : List Row) : List ℕ :=
  ((data.map Row.trade_date).dedup).insertionSort (· ≤ ·)

/-- `date_to_idx` built by enumerating `trade_dates`; on the duplicate-free
list produced by `tradeDates` the first and the last occurrence agree, so
the Python dict (last wins) and `indexOf?` (first wins) coincide. -/
def dateToIdx (td : List ℕ) (d : ℕ) : Option ℕ :=
  td.indexOf? d

/-- Cell of the pivoted `price_table` at a date label and column:
the panel has at most one record per `(date, instrument)` (pandas `pivot`
raises otherwise), so the first matching row is the row. -/
def priceAt (data : List Row) (d : ℕ) (c : String) : Option ℚ :=
  match data.find? (fun r => r.trade_date = d && r.ts_code = c) with
  | some r => r.price
  | none => none

/-- `day.nlargest(k, pred_col)`: stable descending sort by prediction, then
take `k` (pandas `keep="first"` resolves ties by original row order, as does
a stable insertion sort under the non-strict relation). -/
def nlargest (k : ℕ) (day : List Row) : List Row :=
  (day.insertionSort (fun a b => b.pred ≤ a.pred)).take k

/-- The pivoted price table of a panel, as a `PriceFrame` whose rows are the
sorted distinct trade dates. -/
def pivotFrame (data : List Row) : PriceFrame :=
  { index := tradeDates data
  , col := fun s => (tradeDates data).map (fun d => priceAt data d s) }

/-! ## `backtest_topk` (src/src/csxgb/backtest.py, drift-aware variant) -/

/-- The scalar parameters of `backtest_topk`.  `top_k` is an ℤ because the
source guards `k = min(top_k, len(day)) <= 0`; `shift_days` and the horizon
are naturals (the spec types them as non-negative ints). -/
inductive ExitMode
  | rebalance
  | label_horizon
deriving DecidableEq

structure BTParams where
  top_k : ℤ
  shift_days : ℕ
  cost_bps : ℚ
  exit_mode : ExitMode
  exit_horizon_days : Option ℕ
deriving DecidableEq

/-- One accepted period: the `period_info` entry of the source merged with
the parallel `gross/net/turnover/cost` lists.  `turnover` is `Option ℚ`
because the legacy variant records NaN for the first period. -/
structure Period where
  rebalance_date : ℕ
  entry_idx : ℕ
  exit_idx : ℕ
  entry_date : ℕ
  exit_date : ℕ
  holdings : List String
  entryPrices : List (String × ℚ)
  exitPrices : List (String × ℚ)
  gross : ℚ
  turnover : Option ℚ
  cost : ℚ
  net : ℚ
deriving DecidableEq

/-- The carry-forward loop variables `prev_holdings`, `prev_entry_date`,
`prev_entry_prices`, `prev_exit_idx`. -/
structure Carry where
  prevHoldings : Option (List String)
  prevEntryDate : Option ℕ
  prevEntryPrices : Option (List (String × ℚ))
  prevExitIdx : Option ℕ
deriving DecidableEq

/-- All carry variables start as `None`. -/
def carry0 : Carry := ⟨none, none, none, none⟩

/-- Per-iteration outcome: `continue`, `break`, or accept a period and
update the carry. -/
inductive StepOut
  | skip
  | brk
  | acc (p : Period) (c : Carry)
deriving DecidableEq

/-- Value lookup with pandas `fillna(0.0)` semantics. -/
def lookupD (l : List (String × ℚ)) (c : String) : ℚ :=
  (l.lookup c).getD 0

/-- Half the L1 distance between two weight vectors aligned over the union
of their identifiers (the source aligns with `Index.union` and `fillna(0)`;
the union is deduplicated and the sum is order-insensitive). -/
def halfL1 (target drift : List (String × ℚ)) : ℚ :=
  ((drift.map Prod.fst ++ target.map Prod.fst).dedup).foldr
    (fun c acc => |lookupD target c - lookupD drift c| + acc) 0

/-- The drift-aware turnover block of `backtest_topk` (lines 94-115):
result `none` models the float NaN that triggers the overlap fallback. -/
def driftTurnover (data : List Row) (entry_date : ℕ) (td : List ℕ)
    (prevH : List String) (prevED : Option ℕ) (prevP : Option (List (String × ℚ)))
    (holdings : List String) (k : ℕ) : Option ℚ :=
  match prevP, prevED with
  | some pp, some ped =>
    let pp1 : List (String × ℚ) :=
      prevH.filterMap (fun c => (pp.lookup c).map (fun q => (c, q)))
    if pp1 ≠ [] ∧ ped ∈ td then
      let cur : List (String × ℚ × ℚ) :=
        pp1.filterMap (fun cp => (priceAt data entry_date cp.1).map (fun q => (cp.1, cp.2, q)))
      if cur ≠ [] then
        let n : ℚ := cur.length
        let driftRaw : List (String × ℚ) :=
          cur.map (fun t => (t.1, 1 / n * (t.2.2 / t.2.1)))
        let s : ℚ := (driftRaw.map Prod.snd).sum
        if 0 < s then
          let driftW : List (String × ℚ) := driftRaw.map (fun cw => (cw.1, cw.2 / s))
          let targetW : List (String × ℚ) := holdings.map (fun c => (c, 1 / (k : ℚ)))
          some (1 / 2 * halfL1 targetW driftW)
        else none
      else none
    else none
  | _, _ => none

/-- The overlap fallback `1 - |set(holdings) & prev_holdings| / k`. -/
def overlapTurnover (holdings prevH : List String) (k : ℕ) : ℚ :=
  1 - ((holdings.dedup.filter (fun c => prevH.contains c)).length : ℚ) / (k : ℚ)

/-- Body of one loop iteration from the bounds check on (lines 59-140),
given the already-computed entry/exit indices. -/
def btStepCore (P : BTParams) (data : List Row) (td : List ℕ) (reb : ℕ)
    (c : Carry) (entry_idx exit_idx : ℕ) : StepOut :=
  if td.length ≤ entry_idx ∨ td.length ≤ exit_idx ∨ exit_idx ≤ entry_idx then .skip
  else
    let entry_date := td.getD entry_idx 0
    let exit_date := td.getD exit_idx 0
    let day := data.filter (fun r => r.trade_date = reb)
    if day = [] then .skip
    else
      let k0 : ℤ := min P.top_k (day.length : ℤ)
      if k0 ≤ 0 then .skip
      else
        let holdings0 := (nlargest k0.toNat day).map Row.ts_code
        let validH := holdings0.filter
          (fun s => (priceAt data entry_date s).isSome && (priceAt data exit_date s).isSome)
        if validH = [] then .skip
        else
          let entryP := validH.map (fun s => (s, (priceAt data entry_date s).getD 0))
          let exitP := validH.map (fun s => (s, (priceAt data exit_date s).getD 0))
          let k := validH.length
          let gross :=
            ((validH.map (fun s =>
              (priceAt data exit_date s).getD 0 / (priceAt data entry_date s).getD 0 - 1)).sum)
              / (k : ℚ)
          let cost_per_side := P.cost_bps / 10000
          let tc : ℚ × ℚ :=
            match c.prevHoldings with
            | none => (1, cost_per_side)
            | some prevH =>
              let tn :=
                match driftTurnover data entry_date td prevH c.prevEntryDate
                    c.prevEntryPrices validH k with
                | some t => t
                | none => overlapTurnover validH prevH k
              (tn, 2 * cost_per_side * tn)
          let p : Period :=
            { rebalance_date := reb, entry_idx := entry_idx, exit_idx := exit_idx
            , entry_date := entry_date, exit_date := exit_date
            , holdings := validH, entryPrices := entryP, exitPrices := exitP
            , gross := gross, turnover := some tc.1, cost := tc.2, net := gross - tc.2 }
          .acc p ⟨some validH, some entry_date, some entryP, some exit_idx⟩

/-- Error message of the missing-horizon configuration check. -/
def horizonRequiredMsg : String :=
  "exit_horizon_days is required for exit_mode=label_horizon."

/-- Error message of the overlapping-horizon configuration check. -/
def horizonOverlapMsg : String :=
  "exit_mode=label_horizon overlaps with rebalance_dates. Increase rebalance_frequency or use exit_mode=rebalance."

/-- One full loop iteration (lines 37-140): calendar membership, entry/exit
index computation per exit mode with the two configuration errors, then the
common core.  `tail` is the remainder of the rebalance list, so `tail = []`
exactly when `i >= len(rebalance_dates) - 1`. -/
def btStep (P : BTParams) (data : List Row) (td : List ℕ) (reb : ℕ)
    (tail : List ℕ) (c : Carry) : Except String StepOut :=
  match dateToIdx td reb with
  | none => .ok .skip
  | some ridx =>
    match P.exit_mode with
    | .rebalance =>
      match tail with
      | [] => .ok .brk
      | next :: _ =>
        match dateToIdx td next with
        | none => .ok .skip
        | some nidx => .ok (btStepCore P data td reb c (ridx + P.shift_days) (nidx + P.shift_days))
    | .label_horizon =>
      match P.exit_horizon_days with
      | none => .error horizonRequiredMsg
      | some h =>
        match c.prevExitIdx with
        | some pe =>
          if ridx + P.shift_days < pe then .error horizonOverlapMsg
          else .ok (btStepCore P data td reb c (ridx + P.shift_days) (ridx + P.shift_days + h))
        | none => .ok (btStepCore P data td reb c (ridx + P.shift_days) (ridx + P.shift_days + h))

/-- The rebalance loop: thread the accepted periods and the carry state. -/
def btLoop (P : BTParams) (data : List Row) (td : List ℕ) :
    List ℕ → List Period → Carry → Except String (List Period × Carry)
  | [], ps, c => .ok (ps, c)
  | reb :: tail, ps, c =>
    match btStep P data td reb tail c with
    | .error e => .error e
    | .ok .skip => btLoop P data td tail ps c
    | .ok .brk => .ok (ps, c)
    | .ok (.acc p c1) => btLoop P data td tail (ps ++ [p]) c1

/-! ## Performance aggregation tail (NAV path and max drawdown) -/

/-- Running products with accumulator `a` (tail of `Series.cumprod`). -/
def cumprodAux (a : ℚ) : List ℚ → List ℚ
  | [] => []
  | x :: t => a * x :: cumprodAux (a * x) t

/-- `Series.cumprod`. -/
def cumprod (l : List ℚ) : List ℚ := cumprodAux 1 l

/-- Running maxima with accumulator `a`. -/
def cummaxAux (a : ℚ) : List ℚ → List ℚ
  | [] => []
  | x :: t => max a x :: cummaxAux (max a x) t

/-- `Series.cummax`. -/
def cummax : List ℚ → List ℚ
  | [] => []
  | x :: t => x :: cummaxAux x t

/-- `Series.min` of a nonempty series (the source only reduces nonempty
ones; the `[]` default is never reached there). -/
def listMin : List ℚ → ℚ
  | [] => 0
  | x :: t => t.foldl min x

/-- The embedded result: the accepted periods plus the rational-valued
statistics the claims inspect. -/
structure BTResult where
  periods : List Period
  nav : List ℚ
  total_return : ℚ
  max_drawdown : ℚ
deriving DecidableEq

/-- Result assembly from the accumulated periods (lines 142-190 of the
source, restricted to the rational-valued statistics). -/
def assemble (ps : List Period) : Option BTResult :=
  if ps = [] then none
  else
    let nets := ps.map Period.net
    let nav := cumprod (nets.map (fun r => 1 + r))
    let dd := listMin ((nav.zip (cummax nav)).map (fun q => q.1 / q.2 - 1))
    some { periods := ps, nav := nav
         , total_return := (nav.getLast?.getD 0) - 1, max_drawdown := dd }

/-- `backtest_topk` (drift-aware variant, src/src/csxgb/backtest.py):
`Except` carries the two `ValueError`s, the inner `Option` is the
"no result" sentinel `None`. -/
def backtest_topk (P : BTParams) (data : List Row) (rebs : List ℕ) :
    Except String (Option BTResult) :=
  let td := tradeDates data
  if td.length < 2 then .ok none
  else
    match btLoop P data td rebs [] carry0 with
    | .error e => .error e
    | .ok (ps, _) => .ok (assemble ps)

/-! ## The legacy variant (src/csxgb/backtest.py)

Differences from the drift-aware variant: only `prev_holdings` is carried;
`exit_mode=label_horizon` performs no overlap check; the first accepted
period records turnover NaN and cost `0.0`; turnover always uses the overlap
formula on the *unfiltered* top-k holdings with the *unfiltered* `k`. -/

/-- Loop body of the legacy variant from the bounds check on. -/
def btStepCoreLegacy (P : BTParams) (data : List Row) (td : List ℕ) (reb : ℕ)
    (prevHoldings : Option (List String)) (entry_idx exit_idx : ℕ) : StepOut :=
  if td.length ≤ entry_idx ∨ td.length ≤ exit_idx ∨ exit_idx ≤ entry_idx then .skip
  else
    let entry_date := td.getD entry_idx 0
    let exit_date := td.getD exit_idx 0
    let day := data.filter (fun r => r.trade_date = reb)
    if day = [] then .skip
    else
      let k0 : ℤ := min P.top_k (day.length : ℤ)
      if k0 ≤ 0 then .skip
      else
        let holdings := (nlargest k0.toNat day).map Row.ts_code
        let validH := holdings.filter
          (fun s => (priceAt data entry_date s).isSome && (priceAt data exit_date s).isSome)
        if validH = [] then .skip
        else
          let entryP := validH.map (fun s => (s, (priceAt data entry_date s).getD 0))
          let exitP := validH.map (fun s => (s, (priceAt data exit_date s).getD 0))
          let gross :=
            ((validH.map (fun s =>
              (priceAt data exit_date s).getD 0 / (priceAt data entry_date s).getD 0 - 1)).sum)
              / (validH.length : ℚ)
          let tn : Option ℚ :=
            match prevHoldings with
            | none => none
            | some prevH => some (overlapTurnover holdings prevH k0.toNat)
          let cost : ℚ :=
            match prevHoldings with
            | none => 0
            | some _ => 2 * (P.cost_bps / 10000) * tn.getD 0
          let p : Period :=
            { rebalance_date := reb, entry_idx := entry_idx, exit_idx := exit_idx
            , entry_date := entry_date, exit_date := exit_date
            , holdings := holdings, entryPrices := entryP, exitPrices := exitP
            , gross := gross, turnover := tn, cost := cost, net := gross - cost }
          .acc p ⟨some holdings, none, none, none⟩

/-- One legacy loop iteration: same scheduling as the drift-aware variant
but with no overlap check under `label_horizon`. -/
def btStepLegacy (P : BTParams) (data : List Row) (td : List ℕ) (reb : ℕ)
    (tail : List ℕ) (prevHoldings : Option (List String)) : Except String StepOut :=
  match dateToIdx td reb with
  | none => .ok .skip
  | some ridx =>
    match P.exit_mode with
    | .rebalance =>
      match tail with
      | [] => .ok .brk
      | next :: _ =>
        match dateToIdx td next with
        | none => .ok .skip
        | some nidx =>
          .ok (btStepCoreLegacy P data td reb prevHoldings (ridx + P.shift_days) (nidx + P.shift_days))
    | .label_horizon =>
      match P.exit_horizon_days with
      | none => .error horizonRequiredMsg
      | some h =>
        .ok (btStepCoreLegacy P data td reb prevHoldings (ridx + P.shift_days) (ridx + P.shift_days + h))

/-- The legacy rebalance loop. -/
def btLoopLegacy (P : BTParams) (data : List Row) (td : List ℕ) :
    List ℕ → List Period → Option (List String) → Except String (List Period × Option (List String))
  | [], ps, ph => .ok (ps, ph)
  | reb :: tail, ps, ph =>
    match btStepLegacy P data td reb tail ph with
    | .error e => .error e
    | .ok .skip => btLoopLegacy P data td tail ps ph
    | .ok .brk => .ok (ps, ph)
    | .ok (.acc p c1) => btLoopLegacy P data td tail (ps ++ [p]) c1.prevHoldings

/-- `backtest_topk` of the legacy variant. -/
def backtest_topk_legacy (P : BTParams) (data : List Row) (rebs : List ℕ) :
    Except String (Option BTResult) :=
  let td := tradeDates data
  if td.length < 2 then .ok none
  else
    match btLoopLegacy P data td rebs [] none with
    | .error e => .error e
    | .ok (ps, _) => .ok (assemble ps)

/-! ## Claim theorems -/

/-- C10: `BpsCostModel.cost` returns exactly `0.0` whenever the configured
`bps` is non-finite or `<= 0`, for every turnover value, `is_initial` flag
and side string — in particular the one-time initial-entry charge is also
waived at `bps = 0`. -/
theorem bps_cost_zero_when_bps_nonpositive
    (m : BpsCostModel) (turnover : PyFloat) (is_initial : Bool) (side : String)
    (h : m.bps.isFinite = false ∨ m.bps.le (.fin 0) = true) :
    m.cost turnover is_initial side = .fin 0 := by
  unfold BpsCostModel.cost
  rcases h with h | h <;> simp [h]

/-- Witness for C10 at the `bps = 0` edge case the claim highlights. -/
theorem bps_cost_zero_when_bps_nonpositive_witness :
    (PyFloat.le (.fin 0) (.fin 0) = true) ∧
      BpsCostModel.cost ⟨.fin 0, true⟩ (.fin (1/2)) true "entry" = .fin 0 :=
  ⟨by decide,
   bps_cost_zero_when_bps_nonpositive ⟨.fin 0, true⟩ (.fin (1/2)) true "entry"
     (Or.inr (by decide))⟩

/-- C7: for every configuration mapping, `build_cost_model` raises exactly
when the normalized cost-model name is unrecognized, and
`build_exit_policy` raises exactly when the normalized price value is
outside `{strict, ffill, delay}` or the normalized fallback value is
outside `{ffill, none}`; recognized names never raise. -/
theorem config_builders_raise_iff_unrecognized :
    (∀ nm bps rt d,
      (∃ e, build_cost_model (.mapCfg nm bps rt) d = .error e) ↔
        normTok (nm.getD "bps") ∉
          (["none", "zero", "off", "bps", "bp", "basis"] : List String)) ∧
    (∀ pr prp fb fbp dp df,
      (∃ e, build_exit_policy (.mapCfg pr prp fb fbp) dp df = .error e) ↔
        (normTok (orChain pr prp dp) ∉ (["strict", "ffill", "delay"] : List String) ∨
         normTok (orChain fb fbp df) ∉ (["ffill", "none"] : List String))) := by
  constructor
  · intro nm bps rt d
    unfold build_cost_model
    by_cases h1 : normTok (nm.getD "bps") ∈ (["none", "zero", "off"] : List String)
    · simp only [h1, if_true]
      constructor
      · rintro ⟨e, he⟩; cases he
      · intro hmem
        exact absurd (by simp_all) hmem
    · by_cases h2 : normTok (nm.getD "bps") ∈ (["bps", "bp", "basis"] : List String)
      · simp only [h1, h2, if_true, if_false]
        constructor
        · rintro ⟨e, he⟩; cases he
        · intro hmem
          exact absurd (by simp_all) hmem
      · simp only [h1, h2, if_false]
        constructor
        · intro _
          intro hmem
          simp only [List.mem_cons, List.mem_singleton] at hmem h1 h2
          tauto
        · intro _; exact ⟨_, rfl⟩
  · intro pr prp fb fbp dp df
    have hdef : build_exit_policy (.mapCfg pr prp fb fbp) dp df =
        (if normTok (orChain pr prp dp) ∉ (["strict", "ffill", "delay"] : List String) then
          .error "exit_policy.price must be one of: strict, ffill, delay."
        else if normTok (orChain fb fbp df) ∉ (["ffill", "none"] : List String) then
          .error "exit_policy.fallback must be one of: ffill, none."
        else .ok ⟨normTok (orChain pr prp dp), normTok (orChain fb fbp df)⟩) := rfl
    rw [hdef]
    by_cases h1 : normTok (orChain pr prp dp) ∈ (["strict", "ffill", "delay"] : List String)
    · by_cases h2 : normTok (orChain fb fbp df) ∈ (["ffill", "none"] : List String)
      · rw [if_neg (not_not_intro h1), if_neg (not_not_intro h2)]
        constructor
        · rintro ⟨e, he⟩; cases he
        · rintro (h | h)
          · exact absurd h1 h
          · exact absurd h2 h
      · rw [if_neg (not_not_intro h1), if_pos h2]
        constructor
        · intro _; exact Or.inr h2
        · intro _; exact ⟨_, rfl⟩
    · rw [if_pos h1]
      constructor
      · intro _; exact Or.inl h1
      · intro _; exact ⟨_, rfl⟩

/-! ### Helper lemmas about `foldl max` -/

lemma le_foldl_max_init (l : List ℕ) (a : ℕ) : a ≤ l.foldl max a := by
  induction l generalizing a with
  | nil => exact le_refl a
  | cons x t ih => exact le_trans (le_max_left a x) (ih (max a x))

lemma le_foldl_max_mem (l : List ℕ) (a x : ℕ) (hx : x ∈ l) : x ≤ l.foldl max a := by
  induction l generalizing a with
  | nil => cases hx
  | cons y t ih =>
    rcases List.mem_cons.mp hx with h | h
    · subst h
      exact le_trans (le_max_right a x) (le_foldl_max_init t (max a x))
    · exact ih (max a y) h

lemma foldl_max_cases (l : List ℕ) (a : ℕ) : l.foldl max a = a ∨ l.foldl max a ∈ l := by
  induction l generalizing a with
  | nil => exact Or.inl rfl
  | cons x t ih =>
    rcases ih (max a x) with h | h
    · rcases max_choice a x with hm | hm
      · exact Or.inl (by simpa [List.foldl, hm] using h)
      · exact Or.inr (by simp [List.foldl]; left; omega)
    · exact Or.inr (List.mem_cons.mpr (Or.inr h))

/-- C4: `resolve_exit_prices` returns the planned index as the actual period
exit index under `strict` and `ffill`; under `delay` with at least one
resolved instrument it returns the maximum of the planned index and the
per-instrument resolved indices (characterized as an upper bound attained at
the planned index or at one of the resolved instruments). -/
theorem resolve_exit_prices_period_index
    (pol : ExitPolicy) (holdings : List String) (planned : ℕ) (f : PriceFrame)
    (trad : Option BoolFrame) (td : List ℕ) (d2i : ℕ → Option ℕ) :
    ((pol.price_policy = "strict" ∨ pol.price_policy = "ffill") →
      (pol.resolve_exit_prices holdings planned f trad td d2i).2 = planned) ∧
    (pol.price_policy = "delay" →
      exitResolutions pol holdings planned f trad td d2i ≠ [] →
      planned ≤ (pol.resolve_exit_prices holdings planned f trad td d2i).2 ∧
      (∀ t ∈ exitResolutions pol holdings planned f trad td d2i,
        t.2.1 ≤ (pol.resolve_exit_prices holdings planned f trad td d2i).2) ∧
      ((pol.resolve_exit_prices holdings planned f trad td d2i).2 = planned ∨
        ∃ t ∈ exitResolutions pol holdings planned f trad td d2i,
          (pol.resolve_exit_prices holdings planned f trad td d2i).2 = t.2.1)) := by
  by_cases hh : holdings = []
  · constructor
    · intro _
      simp [ExitPolicy.resolve_exit_prices, hh]
    · intro _ hne
      exact absurd (by simp [exitResolutions, hh]) hne
  · by_cases hres : exitResolutions pol holdings planned f trad td d2i = []
    · constructor
      · intro _
        simp [ExitPolicy.resolve_exit_prices, hh, hres]
      · intro _ hne
        exact absurd hres hne
    · have hunf : pol.resolve_exit_prices holdings planned f trad td d2i =
          (((exitResolutions pol holdings planned f trad td d2i).map (fun t => (t.1, t.2.2))),
            if pol.price_policy = "delay" then
              max planned
                (((exitResolutions pol holdings planned f trad td d2i).map
                  (fun t => t.2.1)).foldl max 0)
            else planned) := by
        simp [ExitPolicy.resolve_exit_prices, hh, hres]
      constructor
      · rintro (hpol | hpol) <;> rw [hunf] <;> simp [hpol]
      · intro hpol _
        rw [hunf]
        simp only [hpol, if_true]
        refine ⟨le_max_left _ _, ?_, ?_⟩
        · intro t ht
          exact le_trans
            (le_foldl_max_mem _ 0 t.2.1 (List.mem_map.mpr ⟨t, ht, rfl⟩))
            (le_max_right _ _)
        · rcases max_choice planned
            (((exitResolutions pol holdings planned f trad td d2i).map
              (fun t => t.2.1)).foldl max 0) with hm | hm
          · exact Or.inl hm
          · rcases foldl_max_cases
              ((exitResolutions pol holdings planned f trad td d2i).map (fun t => t.2.1)) 0
              with hc | hc
            · left
              omega
            · rcases List.mem_map.mp hc with ⟨t, ht, hteq⟩
              exact Or.inr ⟨t, ht, by omega⟩

/-- Witness for C4: a concrete `delay` resolution where the realized index
exceeds the planned one, and a concrete `strict` resolution at the planned
index. -/
theorem resolve_exit_prices_period_index_witness :
    (ExitPolicy.resolve_exit_prices ⟨"delay", "ffill"⟩ ["A"] 2
        ⟨[0, 1, 2, 3], fun _ => [some 1, none, none, some 4]⟩ none [0, 1, 2, 3]
        (dateToIdx [0, 1, 2, 3])).2 = 3 ∧
    (ExitPolicy.resolve_exit_prices ⟨"strict", "none"⟩ ["A"] 0
        ⟨[0, 1, 2, 3], fun _ => [some 1, none, none, some 4]⟩ none [0, 1, 2, 3]
        (dateToIdx [0, 1, 2, 3])).2 = 0 := by
  constructor
  · have h := (resolve_exit_prices_period_index ⟨"delay", "ffill"⟩ ["A"] 2
      ⟨[0, 1, 2, 3], fun _ => [some 1, none, none, some 4]⟩ none [0, 1, 2, 3]
      (dateToIdx [0, 1, 2, 3])).2 rfl (by decide)
    rcases h.2.2 with hc | ⟨t, ht, hc⟩
    · exact absurd hc (by decide)
    · have : t ∈ ([("A", 3, (4 : ℚ))] : List (String × ℕ × ℚ)) := by
        revert ht
        have : exitResolutions ⟨"delay", "ffill"⟩ ["A"] 2
            ⟨[0, 1, 2, 3], fun _ => [some 1, none, none, some 4]⟩ none [0, 1, 2, 3]
            (dateToIdx [0, 1, 2, 3]) = [("A", 3, (4 : ℚ))] := by decide
        rw [this]
        exact id
      rw [hc]
      rcases List.mem_singleton.mp this with rfl
      rfl
  · exact (resolve_exit_prices_period_index ⟨"strict", "none"⟩ ["A"] 0
      ⟨[0, 1, 2, 3], fun _ => [some 1, none, none, some 4]⟩ none [0, 1, 2, 3]
      (dateToIdx [0, 1, 2, 3])).1 (Or.inl rfl)

/-! ### Loop infrastructure: unfolding equations, invariants, step inversion -/

lemma btLoop_cons (P : BTParams) (data : List Row) (td : List ℕ) (reb : ℕ)
    (tail : List ℕ) (ps : List Period) (c : Carry) :
    btLoop P data td (reb :: tail) ps c =
      match btStep P data td reb tail c with
      | .error e => .error e
      | .ok .skip => btLoop P data td tail ps c
      | .ok .brk => .ok (ps, c)
      | .ok (.acc p c1) => btLoop P data td tail (ps ++ [p]) c1 := rfl

/-- Any invariant on (accepted periods, carry) preserved by every accepting
step (taken from a suffix of the schedule) holds for the loop result. -/
lemma btLoop_inv (P : BTParams) (data : List Row) (td : List ℕ)
    (I : List Period → Carry → Prop) :
    ∀ (rebs : List ℕ) (ps : List Period) (c : Carry) (out : List Period × Carry),
    (∀ reb tail c0 p c1 ps0, (reb :: tail) <:+ rebs →
      I ps0 c0 → btStep P data td reb tail c0 = .ok (.acc p c1) → I (ps0 ++ [p]) c1) →
    I ps c → btLoop P data td rebs ps c = .ok out → I out.1 out.2 := by
  intro rebs
  induction rebs with
  | nil =>
    intro ps c out _ hI hrun
    cases hrun
    exact hI
  | cons reb tail ih =>
    intro ps c out hstep hI hrun
    rw [btLoop_cons] at hrun
    cases hbt : btStep P data td reb tail c with
    | error e => rw [hbt] at hrun; cases hrun
    | ok so =>
      rw [hbt] at hrun
      cases so with
      | skip =>
        exact ih ps c out
          (fun reb2 tl2 c0 p c1 ps0 hsuf => hstep reb2 tl2 c0 p c1 ps0
            (hsuf.trans (List.suffix_cons reb tail)))
          hI hrun
      | brk =>
        cases hrun
        exact hI
      | acc p c1 =>
        exact ih (ps ++ [p]) c1 out
          (fun reb2 tl2 c0 p2 c2 ps0 hsuf => hstep reb2 tl2 c0 p2 c2 ps0
            (hsuf.trans (List.suffix_cons reb tail)))
          (hstep reb tail c p c1 ps (List.suffix_refl _) hI hbt) hrun

/-- Everything an accepting core step guarantees about the period it emits
and the carry it leaves behind. -/
structure StepFacts (P : BTParams) (data : List Row) (td : List ℕ) (reb : ℕ)
    (c : Carry) (p : Period) (c1 : Carry) : Prop where
  entry_lt : p.entry_idx < td.length
  exit_lt : p.exit_idx < td.length
  entry_lt_exit : p.entry_idx < p.exit_idx
  reb_eq : p.rebalance_date = reb
  entry_date_eq : p.entry_date = td.getD p.entry_idx 0
  exit_date_eq : p.exit_date = td.getD p.exit_idx 0
  holdings_ne : p.holdings ≠ []
  holdings_prices : ∀ s ∈ p.holdings,
    (priceAt data p.entry_date s).isSome = true ∧ (priceAt data p.exit_date s).isSome = true
  entryP_eq : p.entryPrices = p.holdings.map (fun s => (s, (priceAt data p.entry_date s).getD 0))
  exitP_eq : p.exitPrices = p.holdings.map (fun s => (s, (priceAt data p.exit_date s).getD 0))
  first_turnover : c.prevHoldings = none → p.turnover = some 1 ∧ p.cost = P.cost_bps / 10000
  later_turnover : ∀ prevH, c.prevHoldings = some prevH →
    ∃ t, p.turnover = some t ∧ p.cost = 2 * (P.cost_bps / 10000) * t ∧
      (driftTurnover data p.entry_date td prevH c.prevEntryDate c.prevEntryPrices
          p.holdings p.holdings.length = some t ∨
        (driftTurnover data p.entry_date td prevH c.prevEntryDate c.prevEntryPrices
            p.holdings p.holdings.length = none ∧
          t = overlapTurnover p.holdings prevH p.holdings.length))
  carry_eq : c1 = ⟨some p.holdings, some p.entry_date, some p.entryPrices, some p.exit_idx⟩

/-- Inversion of an accepting `btStepCore`. -/
lemma btStepCore_acc {P : BTParams} {data : List Row} {td : List ℕ} {reb : ℕ}
    {c : Carry} {e x : ℕ} {p : Period} {c1 : Carry}
    (h : btStepCore P data td reb c e x = .acc p c1) :
    StepFacts P data td reb c p c1 ∧ p.entry_idx = e ∧ p.exit_idx = x := by
  simp only [btStepCore] at h
  split at h
  · cases h
  next hguard =>
    split at h
    next hday => cases h
    next hday =>
      split at h
      next hk => cases h
      next hk =>
        split at h
        next hvalid => cases h
        next hvalid =>
          cases h
          push_neg at hguard
          refine ⟨⟨?_, ?_, ?_, rfl, rfl, rfl, hvalid, ?_, rfl, rfl, ?_, ?_, rfl⟩,
            rfl, rfl⟩
          · show e < td.length
            omega
          · show x < td.length
            omega
          · show e < x
            omega
          · intro s hs
            have := (List.mem_filter.mp hs).2
            simp only [Bool.and_eq_true] at this
            exact this
          · intro hnone
            rw [hnone]
            exact ⟨rfl, rfl⟩
          · intro prevH hsome
            rw [hsome]
            dsimp only
            cases hdt : driftTurnover data (td.getD e 0) td prevH c.prevEntryDate
                c.prevEntryPrices
                (((nlargest (min P.top_k ((data.filter (fun r => r.trade_date = reb)).length : ℤ)).toNat
                    (data.filter (fun r => r.trade_date = reb))).map Row.ts_code).filter
                  (fun s => (priceAt data (td.getD e 0) s).isSome &&
                    (priceAt data (td.getD x 0) s).isSome))
                (((nlargest (min P.top_k ((data.filter (fun r => r.trade_date = reb)).length : ℤ)).toNat
                    (data.filter (fun r => r.trade_date = reb))).map Row.ts_code).filter
                  (fun s => (priceAt data (td.getD e 0) s).isSome &&
                    (priceAt data (td.getD x 0) s).isSome)).length with
            | some t => exact ⟨t, rfl, rfl, Or.inl rfl⟩
            | none => exact ⟨_, rfl, rfl, Or.inr ⟨rfl, rfl⟩⟩

/-- Inversion of an accepting `btStep`: the accepted period originates from
the core body with the mode-specific entry/exit indices, and under
`label_horizon` the overlap check has passed. -/
lemma btStep_acc {P : BTParams} {data : List Row} {td : List ℕ} {reb : ℕ}
    {tail : List ℕ} {c : Carry} {p : Period} {c1 : Carry}
    (h : btStep P data td reb tail c = .ok (.acc p c1)) :
    StepFacts P data td reb c p c1 ∧
    ∃ ridx, dateToIdx td reb = some ridx ∧ p.entry_idx = ridx + P.shift_days ∧
      ((P.exit_mode = .rebalance →
        ∃ next tl, tail = next :: tl ∧ ∃ nidx, dateToIdx td next = some nidx ∧
          p.exit_idx = nidx + P.shift_days) ∧
       (P.exit_mode = .label_horizon →
        ∃ hz, P.exit_horizon_days = some hz ∧ p.exit_idx = p.entry_idx + hz ∧
          ∀ pe, c.prevExitIdx = some pe → pe ≤ p.entry_idx)) := by
  unfold btStep at h
  cases hd : dateToIdx td reb with
  | none => rw [hd] at h; cases h
  | some ridx =>
    rw [hd] at h
    cases hm : P.exit_mode with
    | rebalance =>
      rw [hm] at h
      dsimp only at h
      cases tail with
      | nil => simp at h
      | cons next tl =>
        dsimp only at h
        cases hn : dateToIdx td next with
        | none => rw [hn] at h; simp at h
        | some nidx =>
          rw [hn] at h
          injection h with h2
          obtain ⟨sf, he, hx⟩ := btStepCore_acc h2
          exact ⟨sf, ridx, rfl, he, fun _ => ⟨next, tl, rfl, nidx, hn, hx⟩,
            fun hL => nomatch hL⟩
    | label_horizon =>
      rw [hm] at h
      dsimp only at h
      cases hh : P.exit_horizon_days with
      | none => rw [hh] at h; cases h
      | some hz =>
        rw [hh] at h
        dsimp only at h
        cases hpe : c.prevExitIdx with
        | some pe =>
          rw [hpe] at h
          dsimp only at h
          by_cases hov : ridx + P.shift_days < pe
          · rw [if_pos hov] at h; cases h
          · rw [if_neg hov] at h
            injection h with h2
            obtain ⟨sf, he, hx⟩ := btStepCore_acc h2
            refine ⟨sf, ridx, rfl, he, fun hR => absurd hR (by decide),
              fun _ => ⟨hz, rfl, by omega, ?_⟩⟩
            intro pe2 hpe2
            injection hpe2 with hpe3
            omega
        | none =>
          rw [hpe] at h
          injection h with h2
          obtain ⟨sf, he, hx⟩ := btStepCore_acc h2
          exact ⟨sf, ridx, rfl, he, fun hR => absurd hR (by decide),
            fun _ => ⟨hz, rfl, by omega, fun pe2 hpe2 => nomatch hpe2⟩⟩

/-! ### Run extraction and error classification -/

lemma tradeDates_nodup (data : List Row) : (tradeDates data).Nodup :=
  ((List.perm_insertionSort (· ≤ ·) ((data.map Row.trade_date).dedup)).symm).nodup
    (List.nodup_dedup _)

/-- Unfolding a successful run: the result record is assembled from the
loop's accepted periods. -/
lemma backtest_topk_ok_some {P : BTParams} {data : List Row} {rebs : List ℕ}
    {res : BTResult} (h : backtest_topk P data rebs = .ok (some res)) :
    ∃ c, btLoop P data (tradeDates data) rebs [] carry0 = .ok (res.periods, c) ∧
      res.periods ≠ [] ∧
      res.nav = cumprod ((res.periods.map Period.net).map (fun r => 1 + r)) ∧
      res.max_drawdown =
        listMin ((res.nav.zip (cummax res.nav)).map (fun q => q.1 / q.2 - 1)) := by
  unfold backtest_topk at h
  by_cases h2 : (tradeDates data).length < 2
  · rw [if_pos h2] at h; cases h
  · rw [if_neg h2] at h
    cases hl : btLoop P data (tradeDates data) rebs [] carry0 with
    | error e => rw [hl] at h; cases h
    | ok out =>
      obtain ⟨ps, c⟩ := out
      rw [hl] at h
      injection h with h3
      unfold assemble at h3
      by_cases he : ps = []
      · rw [if_pos he] at h3; cases h3
      · rw [if_neg he] at h3
        injection h3 with h4
        subst h4
        exact ⟨c, rfl, he, rfl, rfl⟩

/-- The only two exceptions a step can raise are the two `label_horizon`
configuration errors. -/
lemma btStep_error {P : BTParams} {data : List Row} {td : List ℕ} {reb : ℕ}
    {tail : List ℕ} {c : Carry} {e : String}
    (h : btStep P data td reb tail c = .error e) :
    (e = horizonRequiredMsg ∨ e = horizonOverlapMsg) ∧ P.exit_mode = .label_horizon := by
  unfold btStep at h
  cases hd : dateToIdx td reb with
  | none => rw [hd] at h; cases h
  | some ridx =>
    rw [hd] at h
    cases hm : P.exit_mode with
    | rebalance =>
      rw [hm] at h
      dsimp only at h
      cases tail with
      | nil => cases h
      | cons next tl =>
        dsimp only at h
        cases hn : dateToIdx td next with
        | none => rw [hn] at h; cases h
        | some nidx => rw [hn] at h; cases h
    | label_horizon =>
      rw [hm] at h
      dsimp only at h
      cases hh : P.exit_horizon_days with
      | none =>
        rw [hh] at h
        injection h with h2
        exact ⟨Or.inl h2.symm, rfl⟩
      | some hz =>
        rw [hh] at h
        dsimp only at h
        cases hpe : c.prevExitIdx with
        | some pe =>
          rw [hpe] at h
          dsimp only at h
          by_cases hov : ridx + P.shift_days < pe
          · rw [if_pos hov] at h
            injection h with h2
            exact ⟨Or.inr h2.symm, rfl⟩
          · rw [if_neg hov] at h; cases h
        | none => rw [hpe] at h; cases h

/-- Lifted to the whole loop. -/
lemma btLoop_error {P : BTParams} {data : List Row} {td : List ℕ} :
    ∀ {rebs : List ℕ} {ps : List Period} {c : Carry} {e : String},
    btLoop P data td rebs ps c = .error e →
    (e = horizonRequiredMsg ∨ e = horizonOverlapMsg) ∧ P.exit_mode = .label_horizon := by
  intro rebs
  induction rebs with
  | nil => intro ps c e h; cases h
  | cons reb tail ih =>
    intro ps c e h
    rw [btLoop_cons] at h
    cases hbt : btStep P data td reb tail c with
    | error e2 =>
      rw [hbt] at h
      injection h with h2
      obtain ⟨he, hm⟩ := btStep_error hbt
      exact ⟨h2 ▸ he, hm⟩
    | ok so =>
      rw [hbt] at h
      cases so with
      | skip => exact ih h
      | brk => cases h
      | acc p c1 => exact ih h

/-- With `label_horizon` configured but no horizon given, the loop raises the
missing-horizon error as soon as it reaches a schedulable rebalance date. -/
lemma btLoop_missing_horizon {P : BTParams} {data : List Row} {td : List ℕ}
    (hm : P.exit_mode = .label_horizon) (hh : P.exit_horizon_days = none) :
    ∀ (rebs : List ℕ) (ps : List Period) (c : Carry),
    (∃ reb ∈ rebs, dateToIdx td reb ≠ none) →
    btLoop P data td rebs ps c = .error horizonRequiredMsg := by
  intro rebs
  induction rebs with
  | nil =>
    rintro ps c ⟨reb, hmem, _⟩
    cases hmem
  | cons reb tail ih =>
    rintro ps c ⟨r0, hmem, hne⟩
    rw [btLoop_cons]
    cases hd : dateToIdx td reb with
    | some ridx =>
      have hstep : btStep P data td reb tail c = .error horizonRequiredMsg := by
        unfold btStep
        rw [hd, hm, hh]
      rw [hstep]
    | none =>
      have hr0 : r0 ∈ tail := by
        rcases List.mem_cons.mp hmem with h | h
        · subst h; exact absurd hd hne
        · exact h
      have hstep : btStep P data td reb tail c = .ok .skip := by
        unfold btStep
        rw [hd]
      rw [hstep]
      exact ih ps c ⟨r0, hr0, hne⟩

/-- C6: with fewer than two distinct trade dates the simulator returns the
"no result" sentinel; in `rebalance` mode it never raises; a loop that
completes with zero accepted periods yields the sentinel; and any non-`None`
result carries at least one period. -/
theorem insufficient_data_returns_none
    (P : BTParams) (data : List Row) (rebs : List ℕ) :
    ((tradeDates data).length < 2 → backtest_topk P data rebs = .ok none) ∧
    (P.exit_mode = .rebalance → ∀ e, backtest_topk P data rebs ≠ .error e) ∧
    (∀ ps c, btLoop P data (tradeDates data) rebs [] carry0 = .ok (ps, c) → ps = [] →
      backtest_topk P data rebs = .ok none) ∧
    (∀ res, backtest_topk P data rebs = .ok (some res) → res.periods ≠ []) := by
  refine ⟨?_, ?_, ?_, ?_⟩
  · intro h2
    unfold backtest_topk
    rw [if_pos h2]
  · intro hm e h
    unfold backtest_topk at h
    by_cases h2 : (tradeDates data).length < 2
    · rw [if_pos h2] at h; cases h
    · rw [if_neg h2] at h
      cases hl : btLoop P data (tradeDates data) rebs [] carry0 with
      | error e2 =>
        have hcontra := (btLoop_error hl).2
        rw [hm] at hcontra
        cases hcontra
      | ok out =>
        obtain ⟨ps, c⟩ := out
        rw [hl] at h
        cases h
  · intro ps c hl he
    unfold backtest_topk
    by_cases h2 : (tradeDates data).length < 2
    · rw [if_pos h2]
    · rw [if_neg h2, hl]
      subst he
      rfl
  · intro res h
    obtain ⟨c, _, hne, _, _⟩ := backtest_topk_ok_some h
    exact hne

/-- Witness for C6 on an empty panel. -/
theorem insufficient_data_returns_none_witness :
    ((tradeDates []).length < 2) ∧
      backtest_topk ⟨1, 0, 10, .rebalance, none⟩ [] [0, 1] = .ok none :=
  ⟨by decide,
   (insufficient_data_returns_none ⟨1, 0, 10, .rebalance, none⟩ [] [0, 1]).1 (by decide)⟩

/-! ### Sortedness helpers for C8 -/

lemma getLast?_mem_list {α : Type} {l : List α} {a : α} (h : l.getLast? = some a) :
    a ∈ l := by
  induction l with
  | nil => cases h
  | cons x t ih =>
    cases t with
    | nil =>
      rw [List.getLast?_singleton] at h
      injection h with h2
      exact List.mem_singleton.mpr h2.symm
    | cons y t2 =>
      rw [List.getLast?_cons_cons] at h
      exact List.mem_cons.mpr (Or.inr (ih h))

lemma sorted_le_getLast {l : List ℕ} (hs : List.Sorted (· ≤ ·) l) {x dL : ℕ}
    (hx : x ∈ l) (hL : l.getLast? = some dL) : x ≤ dL := by
  induction l with
  | nil => cases hx
  | cons a t ih =>
    rw [List.sorted_cons] at hs
    cases t with
    | nil =>
      rcases List.mem_singleton.mp hx with rfl
      rw [List.getLast?_singleton] at hL
      injection hL with h2
      omega
    | cons b t2 =>
      rw [List.getLast?_cons_cons] at hL
      rcases List.mem_cons.mp hx with rfl | hx2
      · exact hs.1 dL (getLast?_mem_list hL)
      · exact ih hs.2 hx2 hL

/-- C8: in `rebalance` mode, on an ascending rebalance schedule, no accepted
period is opened on the schedule's final date. -/
theorem last_rebalance_date_never_opens_period
    (P : BTParams) (data : List Row) (rebs : List ℕ) (res : BTResult) (dL : ℕ)
    (hmode : P.exit_mode = .rebalance)
    (hsorted : List.Sorted (· ≤ ·) rebs)
    (hlast : rebs.getLast? = some dL)
    (hrun : backtest_topk P data rebs = .ok (some res)) :
    ∀ p ∈ res.periods, p.rebalance_date ≠ dL := by
  obtain ⟨c, hl, _, _, _⟩ := backtest_topk_ok_some hrun
  have := btLoop_inv P data (tradeDates data)
    (fun ps _ => ∀ p ∈ ps, p.rebalance_date ≠ dL) rebs [] carry0 (res.periods, c)
    ?_ (by intro p hp; cases hp) hl
  · exact this
  · intro reb tail c0 p c1 ps0 hsuf hI hstep
    intro p2 hp2
    rcases List.mem_append.mp hp2 with hmem | hmem
    · exact hI p2 hmem
    · rcases List.mem_singleton.mp hmem with rfl
      obtain ⟨sf, ridx, hd, he, hR, _⟩ := btStep_acc hstep
      obtain ⟨next, tl, htail, nidx, hn, hx⟩ := hR hmode
      intro heq
      have hreb : p2.rebalance_date = reb := sf.reb_eq
      have hrebdL : reb = dL := hreb ▸ heq
      subst htail
      have hsuf2 : List.Sorted (· ≤ ·) (reb :: next :: tl) :=
        hsorted.sublist hsuf.sublist
      have h1 : reb ≤ next := (List.sorted_cons.mp hsuf2).1 next (by simp)
      have h2 : next ≤ dL :=
        sorted_le_getLast hsorted (hsuf.subset (by simp)) hlast
      have hnext_reb : next = reb := by omega
      rw [hnext_reb, hd] at hn
      injection hn with hnr
      have := sf.entry_lt_exit
      omega

/-- Witness for C8: a concrete two-date run where the accepted period opens
on the first date only. -/
theorem last_rebalance_date_never_opens_period_witness :
    backtest_topk ⟨1, 0, 10, .rebalance, none⟩
        [⟨0, "A", 1, some 10⟩, ⟨1, "A", 1, some 11⟩] [0, 1] =
      .ok (some ⟨[⟨0, 0, 1, 0, 1, ["A"], [("A", 10)], [("A", 11)], 1/10, some 1, 1/1000,
        99/1000⟩], [1099/1000], 99/1000, 0⟩) ∧
    ∀ p ∈ (⟨[⟨0, 0, 1, 0, 1, ["A"], [("A", 10)], [("A", 11)], 1/10, some 1, 1/1000,
        99/1000⟩], [1099/1000], 99/1000, 0⟩ : BTResult).periods, p.rebalance_date ≠ 1 :=
  ⟨by decide,
   last_rebalance_date_never_opens_period ⟨1, 0, 10, .rebalance, none⟩
     [⟨0, "A", 1, some 10⟩, ⟨1, "A", 1, some 11⟩] [0, 1]
     ⟨[⟨0, 0, 1, 0, 1, ["A"], [("A", 10)], [("A", 11)], 1/10, some 1, 1/1000, 99/1000⟩],
       [1099/1000], 99/1000, 0⟩ 1 rfl (by decide) (by decide) (by decide)⟩

/-- C2 (amended): in the drift-aware variant, the first accepted period
records turnover exactly `1.0` and transaction cost exactly
`cost_bps / 10000` (one side, entry only). -/
theorem first_period_full_turnover_and_entry_cost
    (P : BTParams) (data : List Row) (rebs : List ℕ) (res : BTResult) (p0 : Period)
    (hrun : backtest_topk P data rebs = .ok (some res))
    (hhead : res.periods.head? = some p0) :
    p0.turnover = some 1 ∧ p0.cost = P.cost_bps / 10000 := by
  obtain ⟨c, hl, _, _, _⟩ := backtest_topk_ok_some hrun
  have hinv := btLoop_inv P data (tradeDates data)
    (fun ps c0 => (c0.prevHoldings = none ↔ ps = []) ∧
      (∀ hp, ps.head? = some hp → hp.turnover = some 1 ∧ hp.cost = P.cost_bps / 10000))
    rebs [] carry0 (res.periods, c) ?_ ⟨by simp [carry0], by intro hp h; cases h⟩ hl
  · exact hinv.2 p0 hhead
  · intro reb tail c0 p c1 ps0 hsuf hI hstep
    obtain ⟨sf, _⟩ := btStep_acc hstep
    constructor
    · rw [sf.carry_eq]
      constructor
      · intro h; cases h
      · intro h; exact absurd h (by simp)
    · intro hp hhp
      by_cases hps : ps0 = []
      · subst hps
        simp only [List.nil_append, List.head?_cons] at hhp
        injection hhp with hhp2
        subst hhp2
        exact sf.first_turnover (hI.1.mpr rfl)
      · rw [List.head?_append] at hhp
        cases hq : ps0.head? with
        | none => exact absurd (List.head?_eq_none_iff.mp hq) hps
        | some q =>
          rw [hq] at hhp
          injection hhp with hhp2
          subst hhp2
          exact hI.2 _ hq

/-- Witness for C2: a concrete run whose first period has turnover 1 and
cost `10 / 10000`. -/
theorem first_period_full_turnover_and_entry_cost_witness :
    backtest_topk ⟨1, 0, 10, .rebalance, none⟩
        [⟨0, "A", 1, some 10⟩, ⟨1, "A", 1, some 11⟩] [0, 1] =
      .ok (some ⟨[⟨0, 0, 1, 0, 1, ["A"], [("A", 10)], [("A", 11)], 1/10, some 1, 1/1000,
        99/1000⟩], [1099/1000], 99/1000, 0⟩) ∧
    (some (1 : ℚ) = some 1 ∧ (1/1000 : ℚ) = 10 / 10000) :=
  ⟨by decide,
   first_period_full_turnover_and_entry_cost ⟨1, 0, 10, .rebalance, none⟩
     [⟨0, "A", 1, some 10⟩, ⟨1, "A", 1, some 11⟩] [0, 1]
     ⟨[⟨0, 0, 1, 0, 1, ["A"], [("A", 10)], [("A", 11)], 1/10, some 1, 1/1000, 99/1000⟩],
       [1099/1000], 99/1000, 0⟩
     ⟨0, 0, 1, 0, 1, ["A"], [("A", 10)], [("A", 11)], 1/10, some 1, 1/1000, 99/1000⟩
     (by decide) (by decide)⟩

/-- C2 counterexample: the legacy variant (src/csxgb/backtest.py) records
NaN turnover and zero cost on its first accepted period even though
`cost_bps = 10`, contradicting the claim for that cited variant. -/
theorem first_period_cost_legacy_cex :
    backtest_topk_legacy ⟨1, 0, 10, .rebalance, none⟩
        [⟨0, "A", 1, some 10⟩, ⟨1, "A", 1, some 11⟩] [0, 1] =
      .ok (some ⟨[⟨0, 0, 1, 0, 1, ["A"], [("A", 10)], [("A", 11)], 1/10, none, 0, 1/10⟩],
        [11/10], 1/10, 0⟩) ∧
    ((none : Option ℚ) ≠ some 1 ∧ (0 : ℚ) ≠ 10 / 10000) :=
  ⟨by decide, by decide, by decide⟩

/-- C5 (amended): in the drift-aware variant under `label_horizon`, the run
raises the missing-horizon configuration error as soon as a rebalance date
is schedulable; every raised error is one of the two configuration errors;
and any successful run has non-overlapping consecutive periods (the overlap
check would have raised otherwise). -/
theorem label_horizon_raise_conditions
    (P : BTParams) (data : List Row) (rebs : List ℕ)
    (hmode : P.exit_mode = .label_horizon) :
    (P.exit_horizon_days = none → 2 ≤ (tradeDates data).length →
      (∃ reb ∈ rebs, dateToIdx (tradeDates data) reb ≠ none) →
      backtest_topk P data rebs = .error horizonRequiredMsg) ∧
    (∀ e, backtest_topk P data rebs = .error e →
      e = horizonRequiredMsg ∨ e = horizonOverlapMsg) ∧
    (∀ res, backtest_topk P data rebs = .ok (some res) →
      List.Chain' (fun a b => a.exit_idx ≤ b.entry_idx) res.periods) := by
  refine ⟨?_, ?_, ?_⟩
  · intro hh h2 hex
    unfold backtest_topk
    rw [if_neg (by omega), btLoop_missing_horizon hmode hh rebs [] carry0 hex]
  · intro e h
    unfold backtest_topk at h
    by_cases h2 : (tradeDates data).length < 2
    · rw [if_pos h2] at h; cases h
    · rw [if_neg h2] at h
      cases hl : btLoop P data (tradeDates data) rebs [] carry0 with
      | error e2 =>
        rw [hl] at h
        injection h with h3
        exact h3 ▸ (btLoop_error hl).1
      | ok out =>
        obtain ⟨ps, c⟩ := out
        rw [hl] at h
        cases h
  · intro res hrun
    obtain ⟨c, hl, _, _, _⟩ := backtest_topk_ok_some hrun
    have hinv := btLoop_inv P data (tradeDates data)
      (fun ps c0 => c0.prevExitIdx = ps.getLast?.map Period.exit_idx ∧
        List.Chain' (fun a b => a.exit_idx ≤ b.entry_idx) ps)
      rebs [] carry0 (res.periods, c) ?_ ⟨rfl, List.chain'_nil⟩ hl
    · exact hinv.2
    · intro reb tail c0 p c1 ps0 hsuf hI hstep
      obtain ⟨sf, ridx, hd, he, _, hL⟩ := btStep_acc hstep
      obtain ⟨hz, hhz, hxz, hpe⟩ := hL hmode
      constructor
      · rw [sf.carry_eq]
        simp [List.getLast?_concat]
      · refine List.chain'_append.mpr ⟨hI.2, List.chain'_singleton p, ?_⟩
        intro x hx y hy
        simp only [List.head?_cons, Option.mem_def, Option.some.injEq] at hy
        subst hy
        refine hpe x.exit_idx ?_
        rw [hI.1, Option.mem_def.mp hx]
        rfl

/-- Witness for C5: a concrete `label_horizon` run without a horizon raises
the missing-horizon configuration error. -/
theorem label_horizon_raise_conditions_witness :
    backtest_topk ⟨1, 0, 10, .label_horizon, none⟩
        [⟨0, "A", 1, some 10⟩, ⟨1, "A", 1, some 11⟩] [0, 1] = .error horizonRequiredMsg :=
  (label_horizon_raise_conditions ⟨1, 0, 10, .label_horizon, none⟩
    [⟨0, "A", 1, some 10⟩, ⟨1, "A", 1, some 11⟩] [0, 1] rfl).1 rfl (by decide)
    ⟨0, by decide, by decide⟩

/-- C5 counterexample: the legacy variant accepts two overlapping
fixed-horizon periods (entry index 1 strictly below the previous exit index
3) and returns a result instead of raising. -/
theorem label_horizon_overlap_accepted_legacy_cex :
    (backtest_topk_legacy ⟨1, 0, 10, .label_horizon, some 3⟩
        [⟨0, "A", 1, some 10⟩, ⟨1, "A", 1, some 11⟩, ⟨2, "A", 1, some 12⟩,
         ⟨3, "A", 1, some 13⟩, ⟨4, "A", 1, some 14⟩, ⟨5, "A", 1, some 15⟩]
        [0, 1]).map
      (fun r => r.map (fun res => res.periods.map (fun p => (p.entry_idx, p.exit_idx)))) =
      .ok (some [(0, 3), (1, 4)]) ∧ (1 : ℕ) < 3 :=
  ⟨by decide, by decide⟩

/-! ### C1: the inline exit resolution coincides with every exit policy on
the final survivors -/

lemma getD_map_lt {α β : Type} (f : α → β) (l : List α) (i : ℕ) (h : i < l.length)
    (d : α) (d2 : β) : (l.map f).getD i d2 = f (l.getD i d) := by
  rw [List.getD_eq_getElem?_getD, List.getD_eq_getElem?_getD, List.getElem?_map,
    List.getElem?_eq_getElem h]
  rfl

lemma getD_mem_of_lt {α : Type} (l : List α) (i : ℕ) (h : i < l.length) (d : α) :
    l.getD i d ∈ l := by
  rw [List.getD_eq_getElem?_getD, List.getElem?_eq_getElem h]
  exact List.getElem_mem h

lemma indexOf?_getD_of_nodup :
    ∀ (l : List ℕ), l.Nodup → ∀ i, i < l.length → l.indexOf? (l.getD i 0) = some i := by
  intro l
  induction l with
  | nil => intro _ i h; simp at h
  | cons x t ih =>
    intro hnd i hi
    rw [List.indexOf?_cons]
    cases i with
    | zero => simp
    | succ j =>
      have hj : j < t.length := by simpa using hi
      have hx : x ≠ t.getD j 0 := by
        intro he
        exact (List.nodup_cons.mp hnd).1 (he ▸ getD_mem_of_lt t j hj 0)
      rw [if_neg (by simpa using hx), List.getD_cons_succ,
        ih (List.nodup_cons.mp hnd).2 j hj]
      rfl

lemma filterMap_congr_map {α β : Type} (f : α → Option β) (g : α → β) :
    ∀ l : List α, (∀ x ∈ l, f x = some (g x)) → l.filterMap f = l.map g := by
  intro l
  induction l with
  | nil => intro _; rfl
  | cons x t ih =>
    intro h
    rw [List.filterMap_cons, h x (List.mem_cons_self x t), List.map_cons,
      ih (fun y hy => h y (List.mem_cons_of_mem x hy))]

lemma filter_range_map_getLast {α : Type} (g : ℕ → α) (p : α → Bool) (m : ℕ) :
    ∀ n : ℕ, m < n → p (g m) = true → (∀ j, m < j → j < n → p (g j) = false) →
    (((List.range n).map g).filter p).getLast? = some (g m) := by
  intro n
  induction n with
  | zero => omega
  | succ k ih =>
    intro hm hp hafter
    rw [List.range_succ, List.map_append, List.filter_append, List.map_singleton]
    by_cases hk : m = k
    · subst hk
      have : (([g m] : List α).filter p) = [g m] := by
        simp [List.filter, hp]
      rw [this]
      exact List.getLast?_concat _
    · have : (([g k] : List α).filter p) = [] := by
        simp [List.filter, hafter k (by omega) (by omega)]
      rw [this, List.append_nil]
      exact ih (by omega) hp (fun j h1 h2 => hafter j h1 (by omega))

lemma filter_range_map_head {α : Type} (p : α → Bool) :
    ∀ (m n : ℕ) (g : ℕ → α), m < n → p (g m) = true → (∀ j, j < m → p (g j) = false) →
    (((List.range n).map g).filter p).head? = some (g m) := by
  intro m
  induction m with
  | zero =>
    intro n g hm hp _
    cases n with
    | zero => omega
    | succ k =>
      rw [List.range_succ_eq_map, List.map_cons, List.filter_cons, if_pos hp]
      rfl
  | succ m2 ih =>
    intro n g hm hp hbefore
    cases n with
    | zero => omega
    | succ k =>
      rw [List.range_succ_eq_map, List.map_cons, List.filter_cons,
        if_neg (by simp [hbefore 0 (by omega)]), List.map_map]
      exact ih k (fun i => g (Nat.succ i)) (by omega) hp
        (fun j hj => hbefore (j + 1) (by omega))

/-- On instruments whose price at the planned exit index is present, every
exit policy resolves exactly that index. -/
lemma resolveExitIdx_at_planned (pol : ExitPolicy) (data : List Row) (s : String)
    (planned : ℕ) (hplanned : planned < (tradeDates data).length)
    (hs : (priceAt data ((tradeDates data).getD planned 0) s).isSome = true) :
    pol.resolveExitIdx (pivotFrame data) none s planned (tradeDates data)
      (dateToIdx (tradeDates data)) = some planned := by
  have hlen : ((pivotFrame data).col s).length = (tradeDates data).length :=
    List.length_map _ _
  have hcol : ∀ i, i < (tradeDates data).length →
      ((pivotFrame data).col s).getD i none =
        priceAt data ((tradeDates data).getD i 0) s := by
    intro i hi
    exact getD_map_lt _ _ i hi 0 none
  have hcolpos : colPositions (pivotFrame data) s =
      (List.range (tradeDates data).length).map
        (fun i => (i, (tradeDates data).getD i 0,
          (((pivotFrame data).col s).getD i none))) := by
    unfold colPositions
    rw [hlen]
    rfl
  have hd2i : dateToIdx (tradeDates data) ((tradeDates data).getD planned 0) =
      some planned :=
    indexOf?_getD_of_nodup _ (tradeDates_nodup data) planned hplanned
  unfold ExitPolicy.resolveExitIdx
  rw [if_neg (by omega)]
  by_cases h1 : pol.price_policy = "strict"
  · rw [if_pos h1, if_pos]
    rw [hcol planned hplanned, hs]
    rfl
  · rw [if_neg h1]
    have hlast : lastValidLabel (pivotFrame data) none s planned =
        some ((tradeDates data).getD planned 0) := by
      unfold lastValidLabel
      rw [hcolpos]
      rw [filter_range_map_getLast
        (fun i => (i, (tradeDates data).getD i 0, ((pivotFrame data).col s).getD i none))
        _ planned (tradeDates data).length hplanned
        (by dsimp only
            rw [hcol planned hplanned, hs, decide_eq_true (le_refl planned)]
            rfl)
        (fun j h1 h2 => by
          dsimp only
          rw [decide_eq_false (by omega : ¬ (j ≤ planned))]
          rfl)]
      rfl
    by_cases h2 : pol.price_policy = "ffill"
    · rw [if_pos h2, hlast]
      exact hd2i
    · rw [if_neg h2]
      have hfirst : firstValidLabelFrom (pivotFrame data) none s planned =
          some ((tradeDates data).getD planned 0) := by
        unfold firstValidLabelFrom
        rw [hcolpos]
        rw [filter_range_map_head _ planned (tradeDates data).length
          (fun i => (i, (tradeDates data).getD i 0, ((pivotFrame data).col s).getD i none))
          hplanned
          (by dsimp only
              rw [hcol planned hplanned, hs, decide_eq_true (le_refl planned)]
              rfl)
          (fun j hj => by
            dsimp only
            rw [decide_eq_false (by omega : ¬ (planned ≤ j))]
            rfl)]
        rfl
      rw [hfirst]
      exact hd2i

/-- On a nonempty holdings list whose planned-exit prices are all present,
`resolve_exit_prices` returns exactly those prices and the planned index,
whatever the configured policy. -/
lemma resolve_exit_prices_at_planned (pol : ExitPolicy) (data : List Row)
    (holdings : List String) (planned : ℕ)
    (hplanned : planned < (tradeDates data).length)
    (hne : holdings ≠ [])
    (hall : ∀ s ∈ holdings,
      (priceAt data ((tradeDates data).getD planned 0) s).isSome = true) :
    pol.resolve_exit_prices holdings planned (pivotFrame data) none
      (tradeDates data) (dateToIdx (tradeDates data)) =
      (holdings.map (fun s =>
        (s, (priceAt data ((tradeDates data).getD planned 0) s).getD 0)), planned) := by
  have hres : exitResolutions pol holdings planned (pivotFrame data) none
      (tradeDates data) (dateToIdx (tradeDates data)) =
      holdings.map (fun s =>
        (s, planned, (priceAt data ((tradeDates data).getD planned 0) s).getD 0)) := by
    unfold exitResolutions
    refine filterMap_congr_map _ _ holdings ?_
    intro s hsmem
    rw [resolveExitIdx_at_planned pol data s planned hplanned (hall s hsmem)]
    dsimp only
    have hcol : ((pivotFrame data).col s).getD planned none =
        priceAt data ((tradeDates data).getD planned 0) s :=
      getD_map_lt _ _ planned hplanned 0 none
    rw [hcol]
    cases hq : priceAt data ((tradeDates data).getD planned 0) s with
    | none =>
      have hcontra := hall s hsmem
      rw [hq] at hcontra
      exact absurd hcontra (by decide)
    | some q => rfl
  unfold ExitPolicy.resolve_exit_prices
  rw [if_neg hne, hres]
  have hmapne : holdings.map (fun s =>
      (s, planned, (priceAt data ((tradeDates data).getD planned 0) s).getD 0)) ≠ [] := by
    simpa using hne
  rw [if_neg hmapne]
  refine Prod.ext ?_ ?_
  · simp [List.map_map]
  · dsimp only
    by_cases hdel : pol.price_policy = "delay"
    · rw [if_pos hdel]
      have hidx : (holdings.map (fun s =>
          (s, planned, (priceAt data ((tradeDates data).getD planned 0) s).getD 0))).map
            (fun t => t.2.1) = holdings.map (fun _ => planned) := by
        rw [List.map_map]
        rfl
      rw [hidx]
      have hplmem : planned ∈ holdings.map (fun _ => planned) := by
        cases holdings with
        | nil => exact absurd rfl hne
        | cons a t => simp
      have hub : planned ≤ (holdings.map (fun _ => planned)).foldl max 0 :=
        le_foldl_max_mem _ 0 planned hplmem
      rcases foldl_max_cases (holdings.map (fun _ => planned)) 0 with hc | hc
      · omega
      · rcases List.mem_map.mp hc with ⟨_, _, hcv⟩
        omega
    · rw [if_neg hdel]

/-- C1: for every accepted period of the drift-aware simulator and every
exit policy whose price policy is `strict`, `ffill` or `delay`, applying
`resolve_exit_prices` to the period's surviving holdings at the planned
exit index reproduces exactly the exit prices entering the gross-return
computation and the period's realized exit index. -/
theorem simulator_exit_refines_exit_policy
    (P : BTParams) (data : List Row) (rebs : List ℕ) (res : BTResult)
    (pol : ExitPolicy)
    (hpol : pol.price_policy = "strict" ∨ pol.price_policy = "ffill" ∨
      pol.price_policy = "delay")
    (hrun : backtest_topk P data rebs = .ok (some res)) :
    ∀ p ∈ res.periods,
      pol.resolve_exit_prices p.holdings p.exit_idx (pivotFrame data) none
        (tradeDates data) (dateToIdx (tradeDates data)) = (p.exitPrices, p.exit_idx) := by
  obtain ⟨c, hl, _, _, _⟩ := backtest_topk_ok_some hrun
  have hinv := btLoop_inv P data (tradeDates data)
    (fun ps _ => ∀ p ∈ ps, p.exit_idx < (tradeDates data).length ∧
      p.exit_date = (tradeDates data).getD p.exit_idx 0 ∧
      p.holdings ≠ [] ∧
      (∀ s ∈ p.holdings, (priceAt data p.exit_date s).isSome = true) ∧
      p.exitPrices = p.holdings.map (fun s => (s, (priceAt data p.exit_date s).getD 0)))
    rebs [] carry0 (res.periods, c) ?_ (by intro p hp; cases hp) hl
  · intro p hp
    obtain ⟨h1, h2, h3, h4, h5⟩ := hinv p hp
    rw [h5, h2]
    exact resolve_exit_prices_at_planned pol data p.holdings p.exit_idx h1 h3
      (fun s hs => by rw [← h2]; exact h4 s hs)
  · intro reb tail c0 p c1 ps0 hsuf hI hstep
    intro p2 hp2
    rcases List.mem_append.mp hp2 with hmem | hmem
    · exact hI p2 hmem
    · rcases List.mem_singleton.mp hmem with rfl
      obtain ⟨sf, _⟩ := btStep_acc hstep
      exact ⟨sf.exit_lt, sf.exit_date_eq, sf.holdings_ne,
        fun s hs => (sf.holdings_prices s hs).2, sf.exitP_eq⟩

/-- Witness for C1 at a concrete run and the `delay` policy. -/
theorem simulator_exit_refines_exit_policy_witness :
    backtest_topk ⟨1, 0, 10, .rebalance, none⟩
        [⟨0, "A", 1, some 10⟩, ⟨1, "A", 1, some 11⟩] [0, 1] =
      .ok (some ⟨[⟨0, 0, 1, 0, 1, ["A"], [("A", 10)], [("A", 11)], 1/10, some 1, 1/1000,
        99/1000⟩], [1099/1000], 99/1000, 0⟩) ∧
    ∀ p ∈ (⟨[⟨0, 0, 1, 0, 1, ["A"], [("A", 10)], [("A", 11)], 1/10, some 1, 1/1000,
        99/1000⟩], [1099/1000], 99/1000, 0⟩ : BTResult).periods,
      ExitPolicy.resolve_exit_prices ⟨"delay", "ffill"⟩ p.holdings p.exit_idx
        (pivotFrame [⟨0, "A", 1, some 10⟩, ⟨1, "A", 1, some 11⟩]) none
        (tradeDates [⟨0, "A", 1, some 10⟩, ⟨1, "A", 1, some 11⟩])
        (dateToIdx (tradeDates [⟨0, "A", 1, some 10⟩, ⟨1, "A", 1, some 11⟩])) =
        (p.exitPrices, p.exit_idx) :=
  ⟨by decide,
   simulator_exit_refines_exit_policy ⟨1, 0, 10, .rebalance, none⟩
     [⟨0, "A", 1, some 10⟩, ⟨1, "A", 1, some 11⟩] [0, 1]
     ⟨[⟨0, 0, 1, 0, 1, ["A"], [("A", 10)], [("A", 11)], 1/10, some 1, 1/1000, 99/1000⟩],
       [1099/1000], 99/1000, 0⟩
     ⟨"delay", "ffill"⟩ (Or.inr (Or.inr rfl)) (by decide)⟩

/-! ### C9: the max-drawdown formula -/

/-- Maximum of a nonempty list (0 as the never-used default). -/
def listMax : List ℚ → ℚ
  | [] => 0
  | x :: t => t.foldl max x

/-- NAV after period `t` as the spec states it: the product of `(1 + net)`
over the first `t + 1` periods. -/
def navSpec (net : List ℚ) (t : ℕ) : ℚ :=
  ((net.take (t + 1)).map (fun r => 1 + r)).prod

/-- Running maximum of the NAV path up to period `t`. -/
def runMaxSpec (net : List ℚ) (t : ℕ) : ℚ :=
  listMax ((List.range (t + 1)).map (navSpec net))

/-- The spec formula: minimum over periods of `NAV / runningMaxNAV - 1`. -/
def ddSpec (net : List ℚ) : ℚ :=
  listMin ((List.range net.length).map (fun t => navSpec net t / runMaxSpec net t - 1))

lemma cumprodAux_eq : ∀ (l : List ℚ) (a : ℚ),
    cumprodAux a l = (List.range l.length).map (fun i => a * (l.take (i + 1)).prod) := by
  intro l
  induction l with
  | nil => intro a; rfl
  | cons x t ih =>
    intro a
    show a * x :: cumprodAux (a * x) t = _
    rw [ih (a * x), List.length_cons, List.range_succ_eq_map, List.map_cons, List.map_map]
    congr 1
    · show a * x = a * ((x :: t).take (0 + 1)).prod
      simp
    · refine List.map_congr_left ?_
      intro i _
      show a * x * (t.take (i + 1)).prod = a * ((x :: t).take (Nat.succ i + 1)).prod
      rw [List.take_succ_cons, List.prod_cons, mul_assoc]

lemma cumprod_eq (l : List ℚ) :
    cumprod l = (List.range l.length).map (fun i => (l.take (i + 1)).prod) := by
  unfold cumprod
  rw [cumprodAux_eq]
  exact List.map_congr_left (fun i _ => one_mul _)

lemma cummaxAux_eq : ∀ (l : List ℚ) (a : ℚ),
    cummaxAux a l = (List.range l.length).map (fun i => (l.take (i + 1)).foldl max a) := by
  intro l
  induction l with
  | nil => intro a; rfl
  | cons x t ih =>
    intro a
    show max a x :: cummaxAux (max a x) t = _
    rw [ih (max a x), List.length_cons, List.range_succ_eq_map, List.map_cons, List.map_map]
    congr 1

lemma cummax_eq (l : List ℚ) :
    cummax l = (List.range l.length).map (fun i => listMax (l.take (i + 1))) := by
  cases l with
  | nil => rfl
  | cons x t =>
    show x :: cummaxAux x t = _
    rw [List.length_cons, List.range_succ_eq_map, List.map_cons, List.map_map, cummaxAux_eq]
    congr 1

lemma nav_eq (net : List ℚ) :
    cumprod (net.map (fun r => 1 + r)) = (List.range net.length).map (navSpec net) := by
  rw [cumprod_eq, List.length_map]
  refine List.map_congr_left ?_
  intro i _
  unfold navSpec
  rw [List.map_take]

/-- The code's `(nav / nav.cummax() - 1).min()` equals the spec formula. -/
lemma dd_code_eq_spec (net : List ℚ) :
    listMin (((cumprod (net.map (fun r => 1 + r))).zip
      (cummax (cumprod (net.map (fun r => 1 + r))))).map (fun q => q.1 / q.2 - 1)) =
    ddSpec net := by
  rw [nav_eq, cummax_eq, List.length_map, List.length_range, List.zip_map', List.map_map]
  unfold ddSpec
  refine congrArg listMin (List.map_congr_left ?_)
  intro i hi
  have hi2 : i < net.length := List.mem_range.mp hi
  dsimp only [Function.comp]
  have htake : ((List.range net.length).map (navSpec net)).take (i + 1) =
      (List.range (i + 1)).map (navSpec net) := by
    rw [← List.map_take, List.take_range, Nat.min_eq_left (by omega)]
  rw [htake]
  rfl

lemma foldl_min_le_init (l : List ℚ) (a : ℚ) : l.foldl min a ≤ a := by
  induction l generalizing a with
  | nil => exact le_refl a
  | cons x t ih => exact le_trans (ih (min a x)) (min_le_left a x)

lemma listMin_le_head (x : ℚ) (t : List ℚ) : listMin (x :: t) ≤ x :=
  foldl_min_le_init t x

/-- The code's max drawdown is non-positive: its first entry is
`nav₀ / nav₀ - 1`, which is `0` (or `-1` at a zero NAV). -/
lemma dd_code_nonpos (net : List ℚ) (hne : net ≠ []) :
    listMin (((cumprod (net.map (fun r => 1 + r))).zip
      (cummax (cumprod (net.map (fun r => 1 + r))))).map (fun q => q.1 / q.2 - 1)) ≤ 0 := by
  cases net with
  | nil => exact absurd rfl hne
  | cons r rs =>
    have hhead : (1 * (1 + r)) / (1 * (1 + r)) - 1 ≤ 0 := by
      by_cases hz : (1 : ℚ) * (1 + r) = 0
      · rw [hz, div_zero]
        norm_num
      · rw [div_self hz]
        norm_num
    exact le_trans (listMin_le_head ((1 * (1 + r)) / (1 * (1 + r)) - 1) _) hhead

/-- C9: the reported max drawdown equals the minimum over periods of
`NAV_t / max_{s ≤ t} NAV_s - 1` (NAV the cumulative product of
`1 + net_return`), and it is never positive. -/
theorem max_drawdown_formula
    (P : BTParams) (data : List Row) (rebs : List ℕ) (res : BTResult)
    (hrun : backtest_topk P data rebs = .ok (some res)) :
    res.max_drawdown = ddSpec (res.periods.map Period.net) ∧ res.max_drawdown ≤ 0 := by
  obtain ⟨c, _, hne, hnav, hdd⟩ := backtest_topk_ok_some hrun
  constructor
  · rw [hdd, hnav]
    exact dd_code_eq_spec _
  · rw [hdd, hnav]
    refine dd_code_nonpos _ ?_
    simpa using hne

/-- Witness for C9 at a concrete one-period run. -/
theorem max_drawdown_formula_witness :
    backtest_topk ⟨1, 0, 10, .rebalance, none⟩
        [⟨0, "A", 1, some 10⟩, ⟨1, "A", 1, some 11⟩] [0, 1] =
      .ok (some ⟨[⟨0, 0, 1, 0, 1, ["A"], [("A", 10)], [("A", 11)], 1/10, some 1, 1/1000,
        99/1000⟩], [1099/1000], 99/1000, 0⟩) ∧
    ((⟨[⟨0, 0, 1, 0, 1, ["A"], [("A", 10)], [("A", 11)], 1/10, some 1, 1/1000, 99/1000⟩],
        [1099/1000], 99/1000, 0⟩ : BTResult).max_drawdown =
      ddSpec ((⟨[⟨0, 0, 1, 0, 1, ["A"], [("A", 10)], [("A", 11)], 1/10, some 1, 1/1000,
        99/1000⟩], [1099/1000], 99/1000, 0⟩ : BTResult).periods.map Period.net) ∧
     (⟨[⟨0, 0, 1, 0, 1, ["A"], [("A", 10)], [("A", 11)], 1/10, some 1, 1/1000, 99/1000⟩],
        [1099/1000], 99/1000, 0⟩ : BTResult).max_drawdown ≤ 0) :=
  ⟨by decide,
   max_drawdown_formula ⟨1, 0, 10, .rebalance, none⟩
     [⟨0, "A", 1, some 10⟩, ⟨1, "A", 1, some 11⟩] [0, 1]
     ⟨[⟨0, 0, 1, 0, 1, ["A"], [("A", 10)], [("A", 11)], 1/10, some 1, 1/1000, 99/1000⟩],
       [1099/1000], 99/1000, 0⟩ (by decide)⟩

/-! ### C3: turnover is bounded in `[0, 1]` on positive-price panels -/

lemma lookupD_cons (a : String) (v : ℚ) (t : List (String × ℚ)) (c : String) :
    lookupD ((a, v) :: t) c = if c = a then v else lookupD t c := by
  unfold lookupD
  rw [List.lookup_cons]
  by_cases h : c = a
  · rw [show (c == a) = true from beq_iff_eq.mpr h, if_pos h]
    rfl
  · rw [show (c == a) = false from beq_eq_false_iff_ne.mpr h, if_neg h]

lemma lookupD_nonneg (l : List (String × ℚ)) (hl : ∀ e ∈ l, 0 ≤ e.2) (c : String) :
    0 ≤ lookupD l c := by
  unfold lookupD
  cases hq : l.lookup c with
  | none => simp
  | some v =>
    obtain ⟨l1, l2, heq, _⟩ := List.lookup_eq_some_iff.mp hq
    have hmem : (c, v) ∈ l := by
      rw [heq]
      simp
    simpa using hl _ hmem

lemma sum_lookupD_le : ∀ (l : List (String × ℚ)), (∀ e ∈ l, 0 ≤ e.2) →
    ∀ s : Finset String, (∑ c ∈ s, lookupD l c) ≤ (l.map Prod.snd).sum := by
  intro l
  induction l with
  | nil =>
    intro _ s
    simp [lookupD]
  | cons e t ih =>
    intro hl s
    obtain ⟨a, v⟩ := e
    have hv : 0 ≤ v := hl (a, v) (by simp)
    have ht : ∀ e2 ∈ t, 0 ≤ e2.2 := fun e2 he2 => hl e2 (by simp [he2])
    by_cases ha : a ∈ s
    · rw [← Finset.sum_erase_add s _ ha]
      have h1 : ∑ c ∈ s.erase a, lookupD ((a, v) :: t) c =
          ∑ c ∈ s.erase a, lookupD t c := by
        refine Finset.sum_congr rfl ?_
        intro c hc
        rw [lookupD_cons, if_neg (Finset.ne_of_mem_erase hc)]
      rw [h1, lookupD_cons, if_pos rfl, List.map_cons, List.sum_cons]
      have h2 := ih ht (s.erase a)
      linarith
    · have h1 : ∑ c ∈ s, lookupD ((a, v) :: t) c = ∑ c ∈ s, lookupD t c := by
        refine Finset.sum_congr rfl ?_
        intro c hc
        rw [lookupD_cons, if_neg (fun he : c = a => ha (he ▸ hc))]
      rw [h1, List.map_cons, List.sum_cons]
      have h2 := ih ht s
      linarith

lemma foldr_add_sum (f : String → ℚ) : ∀ U : List String,
    U.foldr (fun c acc => f c + acc) 0 = (U.map f).sum := by
  intro U
  induction U with
  | nil => rfl
  | cons c t ih => simp [ih]

/-- Half the L1 distance between two sub-distributions (non-negative
weights, each totalling at most 1) lies in `[0, 2]`. -/
lemma halfL1_bound (target drift : List (String × ℚ))
    (ht : ∀ e ∈ target, 0 ≤ e.2) (hd : ∀ e ∈ drift, 0 ≤ e.2)
    (hts : (target.map Prod.snd).sum ≤ 1) (hds : (drift.map Prod.snd).sum ≤ 1) :
    0 ≤ halfL1 target drift ∧ halfL1 target drift ≤ 2 := by
  unfold halfL1
  rw [foldr_add_sum (fun c => |lookupD target c - lookupD drift c|)]
  constructor
  · apply List.sum_nonneg
    intro x hx
    rcases List.mem_map.mp hx with ⟨c, _, rfl⟩
    exact abs_nonneg _
  · have hnodup : ((drift.map Prod.fst ++ target.map Prod.fst).dedup).Nodup :=
      List.nodup_dedup _
    have h1 : (((drift.map Prod.fst ++ target.map Prod.fst).dedup).map
        (fun c => |lookupD target c - lookupD drift c|)).sum ≤
        (((drift.map Prod.fst ++ target.map Prod.fst).dedup).map
          (fun c => lookupD target c + lookupD drift c)).sum := by
      apply List.sum_le_sum
      intro c _
      have h2 := lookupD_nonneg target ht c
      have h3 := lookupD_nonneg drift hd c
      exact abs_le.mpr ⟨by linarith, by linarith⟩
    rw [List.sum_map_add] at h1
    have h5 : (((drift.map Prod.fst ++ target.map Prod.fst).dedup).map
        (fun c => lookupD target c)).sum ≤ 1 := by
      rw [← List.sum_toFinset _ hnodup]
      exact le_trans (sum_lookupD_le target ht _) hts
    have h6 : (((drift.map Prod.fst ++ target.map Prod.fst).dedup).map
        (fun c => lookupD drift c)).sum ≤ 1 := by
      rw [← List.sum_toFinset _ hnodup]
      exact le_trans (sum_lookupD_le drift hd _) hds
    linarith

lemma const_weights_sum_le_one (h : List String) :
    ((h.map (fun c => (c, 1 / (h.length : ℚ)))).map Prod.snd).sum ≤ 1 := by
  rw [List.map_map,
    show (Prod.snd ∘ fun c : String => (c, 1 / (h.length : ℚ))) =
      Function.const String (1 / (h.length : ℚ)) from rfl,
    List.map_const, List.sum_replicate, nsmul_eq_mul]
  by_cases hz : (h.length : ℚ) = 0
  · rw [hz]
    norm_num
  · rw [mul_one_div, div_self hz]

lemma div_weights_sum (raw : List (String × ℚ)) (s : ℚ) (hs : s ≠ 0)
    (hsum : (raw.map Prod.snd).sum = s) :
    ((raw.map (fun cw => (cw.1, cw.2 / s))).map Prod.snd).sum = 1 := by
  rw [List.map_map,
    show (Prod.snd ∘ fun cw : String × ℚ => (cw.1, cw.2 / s)) =
      (fun cw : String × ℚ => cw.2 * s⁻¹) from funext (fun cw => div_eq_mul_inv _ _),
    List.sum_map_mul_right, hsum, mul_inv_cancel₀ hs]

/-- Positivity of prices read off the panel, from row-level positivity. -/
lemma priceAt_pos (data : List Row)
    (hpos : ∀ r ∈ data, r.price.isSome = true ∧ 0 < r.price.getD 0)
    (d : ℕ) (c : String) (q : ℚ) (h : priceAt data d c = some q) : 0 < q := by
  unfold priceAt at h
  cases hf : data.find? (fun r => r.trade_date = d && r.ts_code = c) with
  | none => rw [hf] at h; cases h
  | some r =>
    rw [hf] at h
    have h5 : r.price = some q := h
    obtain ⟨_, h2⟩ := hpos r (List.mem_of_find?_eq_some hf)
    rw [h5] at h2
    simpa using h2

/-- The drift-aware turnover, whenever it is defined (non-NaN), lies in
`[0, 1]` on positive-price data with positive carried entry prices. -/
lemma driftTurnover_bound (data : List Row) (entry_date : ℕ) (td : List ℕ)
    (prevH : List String) (prevED : Option ℕ) (prevP : Option (List (String × ℚ)))
    (holdings : List String)
    (hpos : ∀ r ∈ data, r.price.isSome = true ∧ 0 < r.price.getD 0)
    (hprevP : ∀ l, prevP = some l → ∀ e ∈ l, 0 < e.2)
    (t : ℚ)
    (ht : driftTurnover data entry_date td prevH prevED prevP holdings
      holdings.length = some t) :
    0 ≤ t ∧ t ≤ 1 := by
  cases prevP with
  | none => simp [driftTurnover] at ht
  | some pp =>
    cases prevED with
    | none => simp [driftTurnover] at ht
    | some ped =>
      have hppv : ∀ e ∈ pp, 0 < e.2 := hprevP pp rfl
      simp only [driftTurnover] at ht
      by_cases hg1 : (prevH.filterMap (fun c => (pp.lookup c).map (fun q => (c, q)))) ≠ [] ∧
          ped ∈ td
      · rw [if_pos hg1] at ht
        by_cases hg2 : (prevH.filterMap (fun c => (pp.lookup c).map (fun q => (c, q)))).filterMap
            (fun cp => (priceAt data entry_date cp.1).map (fun q => (cp.1, cp.2, q))) ≠ []
        · rw [if_pos hg2] at ht
          set cur := (prevH.filterMap (fun c => (pp.lookup c).map (fun q => (c, q)))).filterMap
            (fun cp => (priceAt data entry_date cp.1).map (fun q => (cp.1, cp.2, q))) with hcur
          set driftRaw := cur.map
            (fun tr => (tr.1, 1 / (cur.length : ℚ) * (tr.2.2 / tr.2.1))) with hdraw
          by_cases hg3 : 0 < (driftRaw.map Prod.snd).sum
          · rw [if_pos hg3] at ht
            injection ht with ht2
            have hrawpos : ∀ e ∈ driftRaw, 0 ≤ e.2 := by
              intro e he
              rw [hdraw] at he
              rcases List.mem_map.mp he with ⟨tr, htr, rfl⟩
              have hn : (0 : ℚ) ≤ 1 / (cur.length : ℚ) := by positivity
              have htr1 : 0 < tr.2.1 := by
                rw [hcur] at htr
                rcases List.mem_filterMap.mp htr with ⟨cp, hcp, hf⟩
                rcases List.mem_filterMap.mp hcp with ⟨c0, _, hf2⟩
                rcases Option.map_eq_some'.mp hf2 with ⟨q1, hq1, hq1e⟩
                rcases Option.map_eq_some'.mp hf with ⟨q2, hq2, hq2e⟩
                obtain ⟨l1, l2, heq, _⟩ := List.lookup_eq_some_iff.mp hq1
                have hmem : (c0, q1) ∈ pp := by rw [heq]; simp
                rw [← hq2e, ← hq1e]
                simpa using hppv _ hmem
              have htr2 : 0 < tr.2.2 := by
                rw [hcur] at htr
                rcases List.mem_filterMap.mp htr with ⟨cp, _, hf⟩
                rcases Option.map_eq_some'.mp hf with ⟨q2, hq2, hq2e⟩
                have := priceAt_pos data hpos entry_date cp.1 q2 hq2
                rw [← hq2e]
                simpa using this
              dsimp only
              positivity
            have hbound := halfL1_bound
              (holdings.map (fun c => (c, 1 / (holdings.length : ℚ))))
              (driftRaw.map (fun cw => (cw.1, cw.2 / (driftRaw.map Prod.snd).sum)))
              (by
                intro e he
                rcases List.mem_map.mp he with ⟨c0, _, rfl⟩
                dsimp only
                positivity)
              (by
                intro e he
                rcases List.mem_map.mp he with ⟨cw, hcw, rfl⟩
                dsimp only
                exact div_nonneg (hrawpos cw hcw) (le_of_lt hg3))
              (const_weights_sum_le_one holdings)
              (le_of_eq (div_weights_sum driftRaw _ (ne_of_gt hg3) rfl))
            rw [← ht2]
            constructor
            · linarith [hbound.1]
            · linarith [hbound.2]
          · rw [if_neg hg3] at ht
            cases ht
        · rw [if_neg hg2] at ht
          cases ht
      · rw [if_neg hg1] at ht
        cases ht

lemma overlapTurnover_bound (h prevH : List String) (hne : h ≠ []) :
    0 ≤ overlapTurnover h prevH h.length ∧ overlapTurnover h prevH h.length ≤ 1 := by
  unfold overlapTurnover
  have hlen : ((h.dedup.filter (fun c => prevH.contains c)).length : ℚ) ≤ (h.length : ℚ) := by
    have h1 : (h.dedup.filter (fun c => prevH.contains c)).length ≤ h.dedup.length :=
      List.length_filter_le _ _
    have h2 : h.dedup.length ≤ h.length := (List.dedup_sublist h).length_le
    exact_mod_cast le_trans h1 h2
  have hk : 0 < (h.length : ℚ) := by
    have : 0 < h.length := List.length_pos.mpr hne
    exact_mod_cast this
  constructor
  · have := (div_le_one hk).mpr hlen
    linarith
  · have : 0 ≤ ((h.dedup.filter (fun c => prevH.contains c)).length : ℚ) / (h.length : ℚ) :=
      div_nonneg (by positivity) (le_of_lt hk)
    linarith

/-- C3: on a panel whose prices are all present and strictly positive, the
recorded turnover of every accepted period lies in `[0, 1]`, for the
drift-aware formula and the overlap fallback alike. -/
theorem turnover_bounded
    (P : BTParams) (data : List Row) (rebs : List ℕ) (res : BTResult)
    (hpos : ∀ r ∈ data, r.price.isSome = true ∧ 0 < r.price.getD 0)
    (hrun : backtest_topk P data rebs = .ok (some res)) :
    ∀ p ∈ res.periods, ∃ t, p.turnover = some t ∧ 0 ≤ t ∧ t ≤ 1 := by
  obtain ⟨c, hl, _, _, _⟩ := backtest_topk_ok_some hrun
  have hinv := btLoop_inv P data (tradeDates data)
    (fun ps c0 => (∀ l, c0.prevEntryPrices = some l → ∀ e ∈ l, 0 < e.2) ∧
      (∀ p ∈ ps, ∃ t, p.turnover = some t ∧ 0 ≤ t ∧ t ≤ 1))
    rebs [] carry0 (res.periods, c)
    ?_ ⟨by intro l h; simp [carry0] at h, by intro p hp; cases hp⟩ hl
  · exact hinv.2
  · intro reb tail c0 p c1 ps0 hsuf hI hstep
    obtain ⟨sf, _⟩ := btStep_acc hstep
    have hentryP : ∀ e ∈ p.entryPrices, 0 < e.2 := by
      intro e he
      rw [sf.entryP_eq] at he
      rcases List.mem_map.mp he with ⟨s, hs, rfl⟩
      have hsome := (sf.holdings_prices s hs).1
      rw [Option.isSome_iff_exists] at hsome
      obtain ⟨q, hq⟩ := hsome
      have := priceAt_pos data hpos p.entry_date s q hq
      dsimp only
      rw [hq]
      simpa using this
    constructor
    · intro l hl2
      rw [sf.carry_eq] at hl2
      injection hl2 with hl3
      rw [← hl3]
      exact hentryP
    · intro p2 hp2
      rcases List.mem_append.mp hp2 with hmem | hmem
      · exact hI.2 p2 hmem
      · rcases List.mem_singleton.mp hmem with rfl
        cases hph : c0.prevHoldings with
        | none =>
          obtain ⟨ht, _⟩ := sf.first_turnover hph
          exact ⟨1, ht, by norm_num, by norm_num⟩
        | some prevH =>
          obtain ⟨t, ht, _, hcase⟩ := sf.later_turnover prevH hph
          rcases hcase with hdrift | ⟨_, hover⟩
          · exact ⟨t, ht,
              driftTurnover_bound data p2.entry_date (tradeDates data) prevH
                c0.prevEntryDate c0.prevEntryPrices p2.holdings hpos hI.1 t hdrift⟩
          · subst hover
            exact ⟨_, ht, overlapTurnover_bound p2.holdings prevH sf.holdings_ne⟩

/-- Witness for C3 at a concrete positive-price run. -/
theorem turnover_bounded_witness :
    backtest_topk ⟨1, 0, 10, .rebalance, none⟩
        [⟨0, "A", 1, some 10⟩, ⟨1, "A", 1, some 11⟩] [0, 1] =
      .ok (some ⟨[⟨0, 0, 1, 0, 1, ["A"], [("A", 10)], [("A", 11)], 1/10, some 1, 1/1000,
        99/1000⟩], [1099/1000], 99/1000, 0⟩) ∧
    ∀ p ∈ (⟨[⟨0, 0, 1, 0, 1, ["A"], [("A", 10)], [("A", 11)], 1/10, some 1, 1/1000,
        99/1000⟩], [1099/1000], 99/1000, 0⟩ : BTResult).periods,
      ∃ t, p.turnover = some t ∧ 0 ≤ t ∧ t ≤ 1 :=
  ⟨by decide,
   turnover_bounded ⟨1, 0, 10, .rebalance, none⟩
     [⟨0, "A", 1, some 10⟩, ⟨1, "A", 1, some 11⟩] [0, 1]
     ⟨[⟨0, 0, 1, 0, 1, ["A"], [("A", 10)], [("A", 11)], 1/10, some 1, 1/1000, 99/1000⟩],
       [1099/1000], 99/1000, 0⟩ (by decide) (by decide)⟩

end CSXGB
